import Mathlib

/-!
Verification of the identifier-audit tool (Search.py): bounded edit distance,
comment/string masking, identifier tokenization, per-file scan engines,
aggregation and expectation checking, modelled over `List Char` text.
-/

set_option autoImplicit false

/-! ## Reference Levenshtein distance (the mathematical specification) -/

/-- Substitution cost of one character against another: 0 if equal, 1 otherwise. -/
def subCost (x y : Char) : Nat := if x = y then 0 else 1

/-- Textbook Levenshtein distance on character lists (unit costs). -/
def lev : List Char → List Char → Nat
  | [], ys => ys.length
  | _ :: xs, [] => xs.length + 1
  | x :: xs, y :: ys =>
      min (lev xs (y :: ys) + 1) (min (lev (x :: xs) ys + 1) (lev xs ys + subCost x y))
termination_by xs ys => xs.length + ys.length
decreasing_by all_goals (simp [List.length_cons]; try omega)

theorem subCost_le_one (x y : Char) : subCost x y ≤ 1 := by
  unfold subCost; split <;> omega

theorem subCost_comm (x y : Char) : subCost x y = subCost y x := by
  unfold subCost
  by_cases h : x = y
  · simp [h]
  · rw [if_neg h, if_neg (fun hyx => h hyx.symm)]

theorem subCost_self (x : Char) : subCost x x = 0 := by simp [subCost]

@[simp] theorem lev_nil_left (ys : List Char) : lev [] ys = ys.length := by
  cases ys <;> simp [lev]

@[simp] theorem lev_nil_right (xs : List Char) : lev xs [] = xs.length := by
  cases xs <;> simp [lev]

theorem lev_cons_cons (x y : Char) (xs ys : List Char) :
    lev (x :: xs) (y :: ys) =
      min (lev xs (y :: ys) + 1) (min (lev (x :: xs) ys + 1) (lev xs ys + subCost x y)) := by
  rw [lev]

theorem lev_self (xs : List Char) : lev xs xs = 0 := by
  induction xs with
  | nil => simp
  | cons x xs ih => rw [lev_cons_cons, subCost_self, ih]; omega

theorem lev_le_cons_left (x : Char) (xs ys : List Char) :
    lev (x :: xs) ys ≤ lev xs ys + 1 := by
  cases ys with
  | nil => simp
  | cons y ys => rw [lev_cons_cons]; omega

theorem lev_le_cons_right (y : Char) (xs ys : List Char) :
    lev xs (y :: ys) ≤ lev xs ys + 1 := by
  cases xs with
  | nil => simp
  | cons x xs => rw [lev_cons_cons]; omega

theorem lev_le_cons_cons (x y : Char) (xs ys : List Char) :
    lev (x :: xs) (y :: ys) ≤ lev xs ys + subCost x y := by
  rw [lev_cons_cons]; omega

/-- Length bounds: each length is at most the other plus the distance. -/
theorem lev_length_bound : ∀ xs ys : List Char,
    xs.length ≤ ys.length + lev xs ys ∧ ys.length ≤ xs.length + lev xs ys := by
  intro xs
  induction xs with
  | nil => intro ys; simp
  | cons x xs ihx =>
    intro ys
    induction ys with
    | nil => simp
    | cons y ys ihy =>
      have h1 := ihx (y :: ys)
      have h2 := ihy
      have h3 := ihx ys
      rw [lev_cons_cons]
      simp only [List.length_cons] at *
      omega

/-- The distance is at most the larger of the two lengths. -/
theorem lev_le_max : ∀ xs ys : List Char, lev xs ys ≤ max xs.length ys.length := by
  intro xs
  induction xs with
  | nil => intro ys; simp
  | cons x xs ihx =>
    intro ys
    cases ys with
    | nil => simp
    | cons y ys =>
      have h3 := ihx ys
      have hc := subCost_le_one x y
      rw [lev_cons_cons]
      simp only [List.length_cons]
      omega

theorem lev_comm : ∀ xs ys : List Char, lev xs ys = lev ys xs := by
  intro xs
  induction xs with
  | nil => intro ys; simp
  | cons x xs ihx =>
    intro ys
    induction ys with
    | nil => simp
    | cons y ys ihy =>
      rw [lev_cons_cons, lev_cons_cons y x]
      rw [ihx (y :: ys), ihy, ihx ys, subCost_comm]
      omega

set_option maxHeartbeats 1000000 in
/-- Arithmetic min-shuffle identity behind the snoc-snoc recurrence. -/
theorem min_shuffle (p1 p2 p3 q1 q2 q3 r1 r2 r3 s0 s1 : Nat) :
    min (min (p1 + 1) (min (q1 + 1) (r1 + s1)) + 1)
      (min (min (p2 + 1) (min (q2 + 1) (r2 + s1)) + 1)
        (min (p3 + 1) (min (q3 + 1) (r3 + s1)) + s0))
    = min (min (p1 + 1) (min (p2 + 1) (p3 + s0)) + 1)
        (min (min (q1 + 1) (min (q2 + 1) (q3 + s0)) + 1)
          (min (r1 + 1) (min (r2 + 1) (r3 + s0)) + s1)) := by
  simp only [← min_add_add_right]
  apply Nat.le_antisymm
  · simp only [le_min_iff]
    refine ⟨⟨?_, ?_, ?_⟩, ⟨?_, ?_, ?_⟩, ?_, ?_, ?_⟩ <;> omega
  · simp only [le_min_iff]
    refine ⟨⟨?_, ?_, ?_⟩, ⟨?_, ?_, ?_⟩, ?_, ?_, ?_⟩ <;> omega

/-- Peeling the last character of both lists: the recurrence used by the
prefix dynamic program. -/
theorem lev_snoc_snoc (x y : Char) : ∀ xs ys : List Char,
    lev (xs ++ [x]) (ys ++ [y]) =
      min (lev xs (ys ++ [y]) + 1)
        (min (lev (xs ++ [x]) ys + 1) (lev xs ys + subCost x y)) := by
  intro xs
  induction xs with
  | nil =>
    intro ys
    induction ys with
    | nil =>
      simp only [List.nil_append]
      rw [lev_cons_cons]
    | cons d ys ihy =>
      simp only [List.nil_append, List.cons_append] at *
      rw [lev_cons_cons x d [] (ys ++ [y]), lev_cons_cons x d [] ys]
      rw [ihy]
      have hc1 := subCost_le_one x d
      have hc2 := subCost_le_one x y
      simp only [lev_nil_left, List.length_cons, List.length_append,
        List.length_nil] at *
      omega
  | cons c xs ihx =>
    intro ys
    induction ys with
    | nil =>
      simp only [List.cons_append, List.nil_append]
      rw [lev_cons_cons c y (xs ++ [x]) [], lev_cons_cons c y xs []]
      have h1 := ihx []
      simp only [List.nil_append] at h1
      rw [h1]
      simp only [lev_nil_right, List.length_append, List.length_cons, List.length_nil]
      omega
    | cons d ys ihy =>
      have h1 := ihx (d :: ys)
      have h2 := ihy
      have h3 := ihx ys
      simp only [List.cons_append] at h1 h2 h3 ⊢
      rw [lev_cons_cons c d (xs ++ [x]) (ys ++ [y]), lev_cons_cons c d xs (ys ++ [y]),
        lev_cons_cons c d (xs ++ [x]) ys, lev_cons_cons c d xs ys]
      rw [h1, h2, h3]
      exact min_shuffle _ _ _ _ _ _ _ _ _ (subCost c d) (subCost x y)

/-- Splitting lemma: some split of `y` certifies the concatenation distance. -/
theorem lev_split (x2 : List Char) : ∀ x1 y : List Char,
    ∃ y1 y2 : List Char, y = y1 ++ y2 ∧ lev x1 y1 + lev x2 y2 ≤ lev (x1 ++ x2) y := by
  intro x1
  induction x1 with
  | nil =>
    intro y
    exact ⟨[], y, rfl, by simp⟩
  | cons c x1 ihx =>
    intro y
    induction y with
    | nil =>
      refine ⟨[], [], rfl, ?_⟩
      simp [List.length_append]
      omega
    | cons d y ihy =>
      have hrec := lev_cons_cons c d (x1 ++ x2) y
      simp only [List.cons_append] at *
      have htri : lev (c :: (x1 ++ x2)) (d :: y) = lev (x1 ++ x2) (d :: y) + 1 ∨
          lev (c :: (x1 ++ x2)) (d :: y) = lev (c :: (x1 ++ x2)) y + 1 ∨
          lev (c :: (x1 ++ x2)) (d :: y) = lev (x1 ++ x2) y + subCost c d := by
        rw [hrec]; omega
      rcases htri with h | h | h
      · obtain ⟨y1, y2, hy, hle⟩ := ihx (d :: y)
        refine ⟨y1, y2, hy, ?_⟩
        have := lev_le_cons_left c x1 y1
        omega
      · obtain ⟨y1, y2, hy, hle⟩ := ihy
        refine ⟨d :: y1, y2, by simp [hy], ?_⟩
        have := lev_le_cons_right d (c :: x1) y1
        omega
      · obtain ⟨y1, y2, hy, hle⟩ := ihx y
        refine ⟨d :: y1, y2, by simp [hy], ?_⟩
        have := lev_le_cons_cons c d x1 y1
        have hs := subCost_le_one c d
        omega

/-- Appending the element at index `i` to `take i`. -/
theorem take_succ_getD (l : List Char) : ∀ i : Nat, i < l.length →
    l.take (i + 1) = l.take i ++ [l.getD i ' '] := by
  induction l with
  | nil => intro i h; simp at h
  | cons a l ih =>
    intro i h
    cases i with
    | zero => simp [List.getD]
    | succ i =>
      simp only [List.take_succ_cons, List.getD_cons_succ]
      rw [ih i (by simpa using h)]
      simp

theorem length_take_eq (l : List Char) (j : Nat) (h : j ≤ l.length) :
    (l.take j).length = j := by
  simp [List.length_take, Nat.min_eq_left h]

/-- Length gap bound for prefix distances. -/
theorem lev_take_gap (a b : List Char) (i j : Nat) (hi : i ≤ a.length) (hj : j ≤ b.length) :
    i ≤ j + lev (a.take i) (b.take j) ∧ j ≤ i + lev (a.take i) (b.take j) := by
  have h := lev_length_bound (a.take i) (b.take j)
  rw [length_take_eq a i hi, length_take_eq b j hj] at h
  exact h

/-- The in-band cell recurrence for prefix distances. -/
theorem lev_take_rec (a b : List Char) (i j : Nat) (hi : i < a.length) (hj : j < b.length) :
    lev (a.take (i + 1)) (b.take (j + 1)) =
      min (lev (a.take i) (b.take (j + 1)) + 1)
        (min (lev (a.take (i + 1)) (b.take j) + 1)
          (lev (a.take i) (b.take j) + subCost (a.getD i ' ') (b.getD j ' '))) := by
  rw [take_succ_getD a i hi, take_succ_getD b j hj, lev_snoc_snoc]

/-! ## The banded DP of `bounded_levenshtein` (Search.py lines 150-195) -/

/-- One row of the banded DP (`cur` in the source): `curRow a b k prev i j`
is the value of `cur[j]` in row `i`, where `prev` is the previous row.
Cells outside the band `[max 1 (i-k), min (len b) (i+k)]` keep the sentinel
`k+1`; `cur[0] = i`. -/
def curRow (a b : List Char) (k : Nat) (prev : Nat → Nat) (i : Nat) : Nat → Nat
  | 0 => i
  | j + 1 =>
    if max 1 (i - k) ≤ j + 1 ∧ j + 1 ≤ min b.length (i + k) then
      min (prev (j + 1) + 1)
        (min (curRow a b k prev i j + 1)
          (prev j + subCost (a.getD (i - 1) ' ') (b.getD j ' ')))
    else k + 1

/-- Minimum of the band cells of a row (`row_min` in the source), starting
from the sentinel `k+1` (`big`). -/
def rowMinimum (cur : Nat → Nat) (s e k : Nat) : Nat :=
  (List.range' s (e + 1 - s)).foldl (fun m j => min m (cur j)) (k + 1)

/-- One iteration of the outer row loop, with `none` marking the early exit
taken when the row minimum exceeds `k`. -/
def levStep (a b : List Char) (k : Nat) (st : Option (Nat → Nat)) (i : Nat) :
    Option (Nat → Nat) :=
  match st with
  | none => none
  | some prev =>
    if k < rowMinimum (curRow a b k prev i) (max 1 (i - k)) (min b.length (i + k)) k then
      none
    else
      some (curRow a b k prev i)

/-- The full row loop over `i = 1 .. len a`, starting from `prev = [0..len b]`. -/
def levRows (a b : List Char) (k : Nat) : Option (Nat → Nat) :=
  (List.range' 1 a.length).foldl (levStep a b k) (some fun j => j)

/-- `bounded_levenshtein` from Search.py: banded Levenshtein distance with
cutoff, returning the sentinel `k+1` when the distance exceeds `k`. -/
def bounded_levenshtein (a b : List Char) (k : Nat) : Nat :=
  if a = b then 0
  else if k < ((a.length : Int) - (b.length : Int)).natAbs then k + 1
  else
    let p := if b.length < a.length then (b, a) else (a, b)
    match levRows p.1 p.2 k with
    | none => k + 1
    | some prev => if prev p.2.length ≤ k then prev p.2.length else k + 1

/-- Row invariant of the banded DP: a row value is exact whenever the true
prefix distance is within the bound, and never undercuts `min (dist) (k+1)`. -/
def DPInv (a b : List Char) (k i : Nat) (row : Nat → Nat) : Prop :=
  ∀ j, j ≤ b.length →
    (lev (a.take i) (b.take j) ≤ k → row j = lev (a.take i) (b.take j)) ∧
    min (lev (a.take i) (b.take j)) (k + 1) ≤ row j

theorem dpinv_zero (a b : List Char) (k : Nat) : DPInv a b k 0 (fun j => j) := by
  intro j hj
  have hD : lev (a.take 0) (b.take j) = j := by
    simp [length_take_eq b j hj]
  refine ⟨fun _ => ?_, ?_⟩ <;> simp [hD] <;> omega

theorem curRow_inv (a b : List Char) (k : Nat) (prev : Nat → Nat) (i : Nat)
    (hi : i + 1 ≤ a.length) (hprev : DPInv a b k i prev) :
    DPInv a b k (i + 1) (curRow a b k prev (i + 1)) := by
  intro j
  induction j with
  | zero =>
    intro _
    have hD : lev (a.take (i + 1)) (b.take 0) = i + 1 := by
      simp [length_take_eq a (i + 1) hi]
    refine ⟨fun _ => ?_, ?_⟩ <;> simp [curRow, hD] <;> omega
  | succ j ih =>
    intro hj
    have hjb : j < b.length := hj
    by_cases hband : max 1 (i + 1 - k) ≤ j + 1 ∧ j + 1 ≤ min b.length (i + 1 + k)
    · have hrec := lev_take_rec a b i j (by omega) hjb
      have hcur : curRow a b k prev (i + 1) (j + 1) =
          min (prev (j + 1) + 1) (min (curRow a b k prev (i + 1) j + 1)
            (prev j + subCost (a.getD i ' ') (b.getD j ' '))) := by
        simp only [curRow]
        rw [if_pos hband]
        simp only [Nat.add_sub_cancel]
      obtain ⟨h1A, h2A⟩ := hprev (j + 1) hj
      obtain ⟨h1C, h2C⟩ := hprev j (by omega)
      obtain ⟨h1B, h2B⟩ := ih (by omega)
      have hA : prev (j + 1) = lev (a.take i) (b.take (j + 1)) ∨
          k + 1 ≤ prev (j + 1) ∧ k < lev (a.take i) (b.take (j + 1)) := by
        by_cases h : lev (a.take i) (b.take (j + 1)) ≤ k
        · exact Or.inl (h1A h)
        · refine Or.inr ⟨by omega, by omega⟩
      have hB : curRow a b k prev (i + 1) j = lev (a.take (i + 1)) (b.take j) ∨
          k + 1 ≤ curRow a b k prev (i + 1) j ∧ k < lev (a.take (i + 1)) (b.take j) := by
        by_cases h : lev (a.take (i + 1)) (b.take j) ≤ k
        · exact Or.inl (h1B h)
        · refine Or.inr ⟨by omega, by omega⟩
      have hC : prev j = lev (a.take i) (b.take j) ∨
          k + 1 ≤ prev j ∧ k < lev (a.take i) (b.take j) := by
        by_cases h : lev (a.take i) (b.take j) ≤ k
        · exact Or.inl (h1C h)
        · refine Or.inr ⟨by omega, by omega⟩
      have hs := subCost_le_one (a.getD i ' ') (b.getD j ' ')
      clear h1A h2A h1B h2B h1C h2C
      rw [hcur]
      rcases hA with hA | hA <;> rcases hB with hB | hB <;> rcases hC with hC | hC <;>
        refine ⟨fun hle => ?_, ?_⟩ <;> omega
    · have hcur : curRow a b k prev (i + 1) (j + 1) = k + 1 := by
        simp only [curRow]
        rw [if_neg hband]
      have hgap := lev_take_gap a b (i + 1) (j + 1) hi hj
      have hbig : k < lev (a.take (i + 1)) (b.take (j + 1)) := by omega
      refine ⟨fun hle => ?_, ?_⟩ <;> rw [hcur] <;> omega

theorem foldl_min_le_init (f : Nat → Nat) : ∀ (l : List Nat) (z : Nat),
    l.foldl (fun m j => min m (f j)) z ≤ z := by
  intro l
  induction l with
  | nil => intro z; simp
  | cons a l ih =>
    intro z
    simp only [List.foldl_cons]
    exact le_trans (ih _) (min_le_left _ _)

theorem foldl_min_le_mem (f : Nat → Nat) : ∀ (l : List Nat) (z j : Nat), j ∈ l →
    l.foldl (fun m j => min m (f j)) z ≤ f j := by
  intro l
  induction l with
  | nil => intro z j h; simp at h
  | cons a l ih =>
    intro z j h
    rcases List.mem_cons.mp h with rfl | h
    · exact le_trans (foldl_min_le_init f l _) (min_le_right _ _)
    · exact ih _ j h

theorem rowMinimum_le (cur : Nat → Nat) (s e k j : Nat) (h1 : s ≤ j) (h2 : j ≤ e) :
    rowMinimum cur s e k ≤ cur j := by
  apply foldl_min_le_mem
  rw [List.mem_range'_1]
  omega

/-- When the full distance is within the bound, every row's band contains a
cell whose true prefix distance is within the bound. -/
theorem exists_band_small (a b : List Char) (k i : Nat) (hab : a.length ≤ b.length)
    (hi1 : 1 ≤ i) (hi2 : i ≤ a.length) (hk : lev a b ≤ k) :
    ∃ j, max 1 (i - k) ≤ j ∧ j ≤ min b.length (i + k) ∧
      lev (a.take i) (b.take j) ≤ k := by
  obtain ⟨y1, y2, hy, hle⟩ := lev_split (a.drop i) (a.take i) b
  rw [List.take_append_drop] at hle
  have hy1 : b.take y1.length = y1 := by rw [hy]; exact List.take_left y1 y2
  have hlen : y1.length ≤ b.length := by rw [hy]; simp
  have hD : lev (a.take i) (b.take y1.length) ≤ k := by rw [hy1]; omega
  have hgap := lev_take_gap a b i y1.length hi2 hlen
  by_cases h0 : 1 ≤ y1.length
  · exact ⟨y1.length, by omega, by omega, hD⟩
  · have hi0 : lev (a.take i) (b.take y1.length) = i := by
      have h00 : y1.length = 0 := by omega
      rw [h00]
      simp [length_take_eq a i hi2]
    have hb1 : 1 ≤ b.length := by omega
    have hD1 : lev (a.take i) (b.take 1) ≤ k := by
      have := lev_le_max (a.take i) (b.take 1)
      rw [length_take_eq a i hi2, length_take_eq b 1 hb1] at this
      omega
    exact ⟨1, by omega, by omega, hD1⟩

theorem range_one_concat (m : Nat) : List.range' 1 (m + 1) = List.range' 1 m ++ [m + 1] := by
  have := @List.range'_concat 1 1 m
  simpa [Nat.add_comm] using this

/-- If the row loop reaches row `m` without exiting, the invariant holds. -/
theorem levRows_partial (a b : List Char) (k : Nat) :
    ∀ m, m ≤ a.length → ∀ row,
      (List.range' 1 m).foldl (levStep a b k) (some fun j => j) = some row →
      DPInv a b k m row := by
  intro m
  induction m with
  | zero =>
    intro _ row h
    simp only [List.range'_zero, List.foldl_nil, Option.some.injEq] at h
    rw [← h]
    exact dpinv_zero a b k
  | succ m ih =>
    intro hm row h
    rw [range_one_concat, List.foldl_append] at h
    cases hst : (List.range' 1 m).foldl (levStep a b k) (some fun j => j) with
    | none => rw [hst] at h; simp [levStep] at h
    | some prevRow =>
      rw [hst] at h
      have hprev := ih (by omega) prevRow hst
      simp only [levStep, List.foldl_cons, List.foldl_nil] at h
      by_cases hex : k < rowMinimum (curRow a b k prevRow (m + 1)) (max 1 (m + 1 - k))
          (min b.length (m + 1 + k)) k
      · rw [if_pos hex] at h; cases h
      · rw [if_neg hex] at h
        obtain rfl : curRow a b k prevRow (m + 1) = row := Option.some.inj h
        exact curRow_inv a b k prevRow m hm hprev

/-- If the true distance is within the bound, the row loop never exits early. -/
theorem levRows_complete (a b : List Char) (k : Nat) (hab : a.length ≤ b.length)
    (hk : lev a b ≤ k) :
    ∀ m, m ≤ a.length → ∃ row,
      (List.range' 1 m).foldl (levStep a b k) (some fun j => j) = some row := by
  intro m
  induction m with
  | zero => exact fun _ => ⟨fun j => j, by simp⟩
  | succ m ih =>
    intro hm
    obtain ⟨prevRow, hst⟩ := ih (by omega)
    have hprev := levRows_partial a b k m (by omega) prevRow hst
    have hinv := curRow_inv a b k prevRow m hm hprev
    obtain ⟨j, hj1, hj2, hjD⟩ := exists_band_small a b k (m + 1) hab (by omega) hm hk
    have hjb : j ≤ b.length := le_trans hj2 (min_le_left _ _)
    have hcurj : curRow a b k prevRow (m + 1) j = lev (a.take (m + 1)) (b.take j) :=
      (hinv j hjb).1 hjD
    have hrm : rowMinimum (curRow a b k prevRow (m + 1)) (max 1 (m + 1 - k))
        (min b.length (m + 1 + k)) k ≤ k := by
      have h1 := rowMinimum_le (curRow a b k prevRow (m + 1)) (max 1 (m + 1 - k))
        (min b.length (m + 1 + k)) k j hj1 hj2
      omega
    refine ⟨curRow a b k prevRow (m + 1), ?_⟩
    rw [range_one_concat, List.foldl_append, hst]
    simp only [levStep, List.foldl_cons, List.foldl_nil]
    rw [if_neg (by omega)]

/-- Core correctness of the row loop and final readout. -/
theorem levRows_correct (a b : List Char) (k : Nat) (hab : a.length ≤ b.length) :
    (match levRows a b k with
     | none => k + 1
     | some row => if row b.length ≤ k then row b.length else k + 1)
    = min (lev a b) (k + 1) := by
  by_cases hk : lev a b ≤ k
  · obtain ⟨row, hrow⟩ := levRows_complete a b k hab hk a.length le_rfl
    have hinv := levRows_partial a b k a.length le_rfl row hrow
    have hD : lev (a.take a.length) (b.take b.length) = lev a b := by
      rw [List.take_length a, List.take_length b]
    have h1 := (hinv b.length le_rfl).1 (by rw [hD]; exact hk)
    rw [hD] at h1
    have hrow2 : levRows a b k = some row := hrow
    rw [hrow2]
    show (if row b.length ≤ k then row b.length else k + 1) = min (lev a b) (k + 1)
    rw [h1, if_pos hk]
    omega
  · cases hrow : levRows a b k with
    | none =>
      show k + 1 = min (lev a b) (k + 1)
      omega
    | some row =>
      have hrow2 : (List.range' 1 a.length).foldl (levStep a b k) (some fun j => j)
          = some row := hrow
      have hinv := levRows_partial a b k a.length le_rfl row hrow2
      have h2 := (hinv b.length le_rfl).2
      rw [List.take_length a, List.take_length b] at h2
      show (if row b.length ≤ k then row b.length else k + 1) = min (lev a b) (k + 1)
      rw [if_neg (by omega)]
      omega

/-- C1: for every pair of strings `a`, `b` and every bound `k ≥ 0`,
`bounded_levenshtein a b k` equals `min (trueLevenshtein a b) (k+1)`: the
banded dynamic program with its early exit returns the exact Levenshtein
distance whenever it is at most `k`, and the sentinel `k+1` otherwise. -/
theorem bounded_levenshtein_eq_min_lev (a b : List Char) (k : Nat) :
    bounded_levenshtein a b k = min (lev a b) (k + 1) := by
  unfold bounded_levenshtein
  by_cases heq : a = b
  · rw [if_pos heq, heq, lev_self]
    omega
  · rw [if_neg heq]
    have hlen := lev_length_bound a b
    by_cases hgap : k < ((a.length : Int) - (b.length : Int)).natAbs
    · rw [if_pos hgap]
      omega
    · rw [if_neg hgap]
      by_cases hswap : b.length < a.length
      · simp only [if_pos hswap]
        have h := levRows_correct b a k (by omega)
        rw [lev_comm b a] at h
        exact h
      · simp only [if_neg hswap]
        exact levRows_correct a b k (by omega)

/-! ## Lexical masker (`mask_cpp_comments_and_strings`, Search.py lines 38-143) -/

/-- The double-quote character. -/
def dquote : Char := Char.ofNat 34

/-- The single-quote character. -/
def squote : Char := Char.ofNat 39

/-- `put_spaces` from the source: replace positions `[a, b)` with spaces,
keeping newline characters. -/
def put_spaces : List Char → Nat → Nat → List Char
  | [], _, _ => []
  | c :: rest, a, b =>
    (if a = 0 ∧ 0 < b ∧ c ≠ '\n' then ' ' else c) :: put_spaces rest (a - 1) (b - 1)

@[simp] theorem length_put_spaces : ∀ (l : List Char) (a b : Nat),
    (put_spaces l a b).length = l.length := by
  intro l
  induction l with
  | nil => intro a b; rfl
  | cons c rest ih => intro a b; simp [put_spaces, ih]

theorem get?_put_spaces : ∀ (l : List Char) (a b p : Nat),
    (put_spaces l a b).get? p
      = (l.get? p).map (fun c => if a ≤ p ∧ p < b ∧ c ≠ '\n' then ' ' else c) := by
  intro l
  induction l with
  | nil => intro a b p; simp [put_spaces]
  | cons c rest ih =>
    intro a b p
    cases p with
    | zero =>
      simp only [put_spaces, List.get?_cons_zero, Option.map_some']
      congr 1
      apply if_congr _ rfl rfl
      constructor
      · rintro ⟨x, y, z⟩; exact ⟨by omega, y, z⟩
      · rintro ⟨x, y, z⟩; exact ⟨by omega, y, z⟩
    | succ p =>
      simp only [put_spaces, List.get?_cons_succ]
      rw [ih]
      cases hc : rest.get? p with
      | none => simp
      | some c0 =>
        simp only [Option.map_some']
        congr 1
        apply if_congr _ rfl rfl
        constructor
        · rintro ⟨x, y, z⟩; exact ⟨by omega, by omega, z⟩
        · rintro ⟨x, y, z⟩; exact ⟨by omega, by omega, z⟩

/-- Scan to the end of a `//` comment: first index `≥ i` holding a newline, else
the end of input. -/
def scanToNl (src : List Char) (i : Nat) : Nat :=
  if h : i < src.length then
    if src.getD i ' ' = '\n' then i else scanToNl src (i + 1)
  else i
termination_by src.length - i
decreasing_by simp_wf; omega

/-- Scan for the closing `*/` of a block comment: the index where `*` of `*/`
sits, or the last scanned index if input ends first. -/
def scanBlock (src : List Char) (i : Nat) : Nat :=
  if h : i + 1 < src.length then
    if src.getD i ' ' = '*' ∧ src.getD (i + 1) ' ' = '/' then i else scanBlock src (i + 1)
  else i
termination_by src.length - i
decreasing_by simp_wf; omega

/-- Scan a quoted literal with backslash escapes; returns the index just past
the closing quote, or the end of input. -/
def scanLit (src : List Char) (q : Char) (i : Nat) : Nat :=
  if h : i < src.length then
    if src.getD i ' ' = '\\' ∧ i + 1 < src.length then scanLit src q (i + 2)
    else if src.getD i ' ' = q then i + 1
    else scanLit src q (i + 1)
  else i
termination_by src.length - i
decreasing_by all_goals (simp_wf; omega)

/-- Scan for an opening parenthesis (raw-string delimiter search). -/
def scanToParen (src : List Char) (i : Nat) : Nat :=
  if h : i < src.length then
    if src.getD i ' ' = '(' then i else scanToParen src (i + 1)
  else i
termination_by src.length - i
decreasing_by simp_wf; omega

/-- `str.find(sub, start)`: first index `p ≥ i` where `pat` occurs in `src`. -/
def findSub (src pat : List Char) (i : Nat) : Option Nat :=
  if h : i + pat.length ≤ src.length then
    if (src.drop i).take pat.length = pat then some i else findSub src pat (i + 1)
  else none
termination_by src.length + 1 - i
decreasing_by simp_wf; omega

theorem scanToNl_ge (src : List Char) : ∀ m i, src.length - i ≤ m → i ≤ scanToNl src i := by
  intro m
  induction m with
  | zero =>
    intro i h
    rw [scanToNl]
    rw [dif_neg (by omega)]
  | succ m ih =>
    intro i h
    rw [scanToNl]
    by_cases hi : i < src.length
    · rw [dif_pos hi]
      by_cases hn : src.getD i ' ' = '\n'
      · rw [if_pos hn]
      · rw [if_neg hn]
        exact le_trans (by omega) (ih (i + 1) (by omega))
    · rw [dif_neg hi]

theorem scanBlock_ge (src : List Char) : ∀ m i, src.length - i ≤ m → i ≤ scanBlock src i := by
  intro m
  induction m with
  | zero =>
    intro i h
    rw [scanBlock]
    by_cases hi : i + 1 < src.length
    · rw [dif_pos hi]
      by_cases hc : src.getD i ' ' = '*' ∧ src.getD (i + 1) ' ' = '/'
      · rw [if_pos hc]
      · rw [if_neg hc]
        exfalso; omega
    · rw [dif_neg hi]
  | succ m ih =>
    intro i h
    rw [scanBlock]
    by_cases hi : i + 1 < src.length
    · rw [dif_pos hi]
      by_cases hc : src.getD i ' ' = '*' ∧ src.getD (i + 1) ' ' = '/'
      · rw [if_pos hc]
      · rw [if_neg hc]
        exact le_trans (by omega) (ih (i + 1) (by omega))
    · rw [dif_neg hi]

theorem scanLit_ge (src : List Char) (q : Char) : ∀ m i, src.length - i ≤ m →
    i ≤ scanLit src q i := by
  intro m
  induction m with
  | zero =>
    intro i h
    rw [scanLit]
    rw [dif_neg (by omega)]
  | succ m ih =>
    intro i h
    rw [scanLit]
    by_cases hi : i < src.length
    · rw [dif_pos hi]
      by_cases he : src.getD i ' ' = '\\' ∧ i + 1 < src.length
      · rw [if_pos he]
        exact le_trans (by omega) (ih (i + 2) (by omega))
      · rw [if_neg he]
        by_cases hq : src.getD i ' ' = q
        · rw [if_pos hq]; omega
        · rw [if_neg hq]
          exact le_trans (by omega) (ih (i + 1) (by omega))
    · rw [dif_neg hi]

theorem scanToParen_ge (src : List Char) : ∀ m i, src.length - i ≤ m →
    i ≤ scanToParen src i := by
  intro m
  induction m with
  | zero =>
    intro i h
    rw [scanToParen]
    rw [dif_neg (by omega)]
  | succ m ih =>
    intro i h
    rw [scanToParen]
    by_cases hi : i < src.length
    · rw [dif_pos hi]
      by_cases hn : src.getD i ' ' = '('
      · rw [if_pos hn]
      · rw [if_neg hn]
        exact le_trans (by omega) (ih (i + 1) (by omega))
    · rw [dif_neg hi]

theorem findSub_ge (src pat : List Char) : ∀ m i cp, src.length + 1 - i ≤ m →
    findSub src pat i = some cp → i ≤ cp := by
  intro m
  induction m with
  | zero =>
    intro i cp h hf
    rw [findSub] at hf
    rw [dif_neg (by omega)] at hf
    cases hf
  | succ m ih =>
    intro i cp h hf
    rw [findSub] at hf
    by_cases hi : i + pat.length ≤ src.length
    · rw [dif_pos hi] at hf
      by_cases hm : (src.drop i).take pat.length = pat
      · rw [if_pos hm] at hf
        cases hf
        omega
      · rw [if_neg hm] at hf
        exact le_trans (by omega) (ih (i + 1) cp (by omega) hf)
    · rw [dif_neg hi] at hf
      cases hf

theorem le_scanToNl (src : List Char) (i : Nat) : i ≤ scanToNl src i :=
  scanToNl_ge src (src.length - i) i le_rfl

theorem le_scanBlock (src : List Char) (i : Nat) : i ≤ scanBlock src i :=
  scanBlock_ge src (src.length - i) i le_rfl

theorem le_scanLit (src : List Char) (q : Char) (i : Nat) : i ≤ scanLit src q i :=
  scanLit_ge src q (src.length - i) i le_rfl

theorem le_scanToParen (src : List Char) (i : Nat) : i ≤ scanToParen src i :=
  scanToParen_ge src (src.length - i) i le_rfl

theorem le_findSub (src pat : List Char) (i cp : Nat) (h : findSub src pat i = some cp) :
    i ≤ cp :=
  findSub_ge src pat (src.length + 1 - i) i cp le_rfl h

/-- The main masking loop of `mask_cpp_comments_and_strings`: walk `src` from
position `i`, blanking comment and literal regions of `out`. -/
def maskLoop (src : List Char) (i : Nat) (out : List Char) : List Char :=
  if h : i < src.length then
    if src.getD i ' ' = '/' ∧ i + 1 < src.length ∧ src.getD (i + 1) ' ' = '/' then
      maskLoop src (scanToNl src (i + 2)) (put_spaces out i (scanToNl src (i + 2)))
    else if src.getD i ' ' = '/' ∧ i + 1 < src.length ∧ src.getD (i + 1) ' ' = '*' then
      maskLoop src (min src.length (scanBlock src (i + 2) + 2))
        (put_spaces out i (min src.length (scanBlock src (i + 2) + 2)))
    else if src.getD i ' ' = dquote then
      maskLoop src (scanLit src dquote (i + 1)) (put_spaces out i (scanLit src dquote (i + 1)))
    else if src.getD i ' ' = squote then
      maskLoop src (scanLit src squote (i + 1)) (put_spaces out i (scanLit src squote (i + 1)))
    else if src.getD i ' ' = 'R' ∧ i + 1 < src.length ∧ src.getD (i + 1) ' ' = dquote then
      if scanToParen src (i + 2) < src.length then
        match hf : findSub src
            (')' :: ((src.drop (i + 2)).take (scanToParen src (i + 2) - (i + 2)) ++ [dquote]))
            (scanToParen src (i + 2) + 1) with
        | some cp =>
          maskLoop src
            (cp + ((src.drop (i + 2)).take (scanToParen src (i + 2) - (i + 2))).length + 2)
            (put_spaces out i
              (cp + ((src.drop (i + 2)).take (scanToParen src (i + 2) - (i + 2))).length + 2))
        | none => put_spaces out i src.length
      else put_spaces out i src.length
    else maskLoop src (i + 1) out
  else out
termination_by src.length - i
decreasing_by
  · have := le_scanToNl src (i + 2); omega
  · have := le_scanBlock src (i + 2); omega
  · have := le_scanLit src dquote (i + 1); omega
  · have := le_scanLit src squote (i + 1); omega
  · have h1 := le_findSub src _ _ cp hf
    have h2 := le_scanToParen src (i + 2)
    omega
  · omega

/-- `mask_cpp_comments_and_strings` from the source. -/
def mask_cpp_comments_and_strings (src : List Char) : List Char :=
  maskLoop src 0 src

/-- Relation between masker input and output: same length, each character kept
or blanked to a space (newlines never blanked). -/
def ShapeRel (out r : List Char) : Prop :=
  r.length = out.length ∧
  ∀ p c', r.get? p = some c' → ∃ c, out.get? p = some c ∧ (c' = c ∨ (c' = ' ' ∧ c ≠ '\n'))

theorem shapeRel_refl (out : List Char) : ShapeRel out out :=
  ⟨rfl, fun _ c' h => ⟨c', h, Or.inl rfl⟩⟩

theorem shapeRel_put (out : List Char) (a b : Nat) : ShapeRel out (put_spaces out a b) := by
  refine ⟨length_put_spaces out a b, fun p c' h => ?_⟩
  rw [get?_put_spaces] at h
  cases hc : out.get? p with
  | none => rw [hc] at h; cases h
  | some c =>
    rw [hc] at h
    simp only [Option.map_some'] at h
    refine ⟨c, rfl, ?_⟩
    by_cases hcond : a ≤ p ∧ p < b ∧ c ≠ '\n'
    · rw [if_pos hcond] at h
      cases h
      exact Or.inr ⟨rfl, hcond.2.2⟩
    · rw [if_neg hcond] at h
      cases h
      exact Or.inl rfl

theorem shapeRel_trans {x y z : List Char} (h1 : ShapeRel x y) (h2 : ShapeRel y z) :
    ShapeRel x z := by
  refine ⟨h2.1.trans h1.1, fun p c' h => ?_⟩
  obtain ⟨cm, hcm, hd1⟩ := h2.2 p c' h
  obtain ⟨c, hc, hd2⟩ := h1.2 p cm hcm
  refine ⟨c, hc, ?_⟩
  rcases hd1 with rfl | ⟨rfl, hne⟩
  · exact hd2
  · rcases hd2 with rfl | ⟨h1', h2'⟩
    · exact Or.inr ⟨rfl, hne⟩
    · exact Or.inr ⟨rfl, h2'⟩

theorem maskLoop_shape (src : List Char) : ∀ (i : Nat) (out : List Char),
    ShapeRel out (maskLoop src i out) := by
  intro i out
  induction i, out using maskLoop.induct src with
  | case1 i out hlt h1 ih =>
    rw [maskLoop]
    simp only [dif_pos hlt, if_pos h1]
    exact shapeRel_trans (shapeRel_put out i _) ih
  | case2 i out hlt h1 h2 ih =>
    rw [maskLoop]
    simp only [dif_pos hlt, if_neg h1, if_pos h2]
    exact shapeRel_trans (shapeRel_put out i _) ih
  | case3 i out hlt h1 h2 h3 ih =>
    rw [maskLoop]
    simp only [dif_pos hlt, if_neg h1, if_neg h2, if_pos h3]
    exact shapeRel_trans (shapeRel_put out i _) ih
  | case4 i out hlt h1 h2 h3 h4 ih =>
    rw [maskLoop]
    simp only [dif_pos hlt, if_neg h1, if_neg h2, if_neg h3, if_pos h4]
    exact shapeRel_trans (shapeRel_put out i _) ih
  | case5 i out hlt h1 h2 h3 h4 h5 hpar cp hf ih =>
    rw [maskLoop]
    simp only [dif_pos hlt, if_neg h1, if_neg h2, if_neg h3, if_neg h4, if_pos h5,
      if_pos hpar]
    split
    · next cp' heq =>
        obtain rfl : cp = cp' := Option.some.inj (hf.symm.trans heq)
        exact shapeRel_trans (shapeRel_put out i _) ih
    · next heq =>
        rw [hf] at heq
        cases heq
  | case6 i out hlt h1 h2 h3 h4 h5 hpar hf =>
    rw [maskLoop]
    simp only [dif_pos hlt, if_neg h1, if_neg h2, if_neg h3, if_neg h4, if_pos h5,
      if_pos hpar]
    split
    · next cp' heq =>
        rw [hf] at heq
        cases heq
    · next heq => exact shapeRel_put out i _
  | case7 i out hlt h1 h2 h3 h4 h5 hpar =>
    rw [maskLoop]
    simp only [dif_pos hlt, if_neg h1, if_neg h2, if_neg h3, if_neg h4, if_pos h5,
      if_neg hpar]
    exact shapeRel_put out i _
  | case8 i out hlt h1 h2 h3 h4 h5 ih =>
    rw [maskLoop]
    simp only [dif_pos hlt, if_neg h1, if_neg h2, if_neg h3, if_neg h4, if_neg h5]
    exact ih
  | case9 i out hlt =>
    rw [maskLoop]
    simp only [dif_neg hlt]
    exact shapeRel_refl out

/-- C2: for every input string, `mask_cpp_comments_and_strings` returns a
string of identical length whose newline characters occur at exactly the same
positions as in the input; every non-newline character is either left
unchanged or replaced by a space. -/
theorem mask_cpp_preserves_shape (s : List Char) :
    (mask_cpp_comments_and_strings s).length = s.length ∧
    (∀ p c c', s.get? p = some c → (mask_cpp_comments_and_strings s).get? p = some c' →
      c' = c ∨ (c' = ' ' ∧ c ≠ '\n')) ∧
    (∀ p, (mask_cpp_comments_and_strings s).get? p = some '\n' ↔ s.get? p = some '\n') := by
  have hrel := maskLoop_shape s 0 s
  refine ⟨hrel.1, fun p c c' hc hc' => ?_, fun p => ?_⟩
  · obtain ⟨c0, hc0, hd⟩ := hrel.2 p c' hc'
    rw [hc] at hc0
    cases hc0
    exact hd
  · constructor
    · intro h
      obtain ⟨c0, hc0, hd⟩ := hrel.2 p '\n' h
      rcases hd with rfl | ⟨habs, _⟩
      · exact hc0
      · exact absurd habs (by decide)
    · intro h
      have hlt : p < s.length := by
        rcases List.get?_eq_some.mp h with ⟨hlt, -⟩
        exact hlt
      have hp : p < (mask_cpp_comments_and_strings s).length := by
        show p < (maskLoop s 0 s).length
        rw [hrel.1]
        exact hlt
      have hc' := List.get?_eq_get hp
      obtain ⟨c0, hc0, hd⟩ := hrel.2 p _ hc'
      rw [h] at hc0
      cases hc0
      rcases hd with heq | ⟨hsp, hne⟩
      · exact hc'.trans (by rw [heq])
      · exact absurd rfl hne

theorem get?_eq_some_getD (l : List Char) : ∀ i, i < l.length →
    l.get? i = some (l.getD i ' ') := by
  induction l with
  | nil => intro i h; simp at h
  | cons a l ih =>
    intro i h
    cases i with
    | zero => rfl
    | succ i =>
      simp only [List.get?_cons_succ, List.getD_cons_succ]
      exact ih i (by simpa using h)

/-- A position is clean when no comment, string, char or raw-string opener
starts there. Masked output is clean everywhere, which makes the masker
idempotent. -/
def CleanAt (l : List Char) (p : Nat) : Prop :=
  l.get? p ≠ some dquote ∧ l.get? p ≠ some squote ∧
  (l.get? p = some '/' → l.get? (p + 1) ≠ some '/' ∧ l.get? (p + 1) ≠ some '*') ∧
  (l.get? p = some 'R' → l.get? (p + 1) ≠ some dquote)

theorem cleanAt_stable {out out' : List Char} {p : Nat} (h : CleanAt out p)
    (hp : out'.get? p = out.get? p)
    (hp1 : out'.get? (p + 1) = out.get? (p + 1) ∨ out'.get? (p + 1) = some ' ') :
    CleanAt out' p := by
  obtain ⟨hq, hsq, hsl, hr⟩ := h
  refine ⟨by rw [hp]; exact hq, by rw [hp]; exact hsq, ?_, ?_⟩
  · intro hc
    rw [hp] at hc
    obtain ⟨hs1, hs2⟩ := hsl hc
    rcases hp1 with he | he
    · rw [he]; exact ⟨hs1, hs2⟩
    · rw [he]; constructor <;> simp
  · intro hc
    rw [hp] at hc
    have := hr hc
    rcases hp1 with he | he
    · rw [he]; exact this
    · rw [he]
      intro habs
      have : (' ' : Char) = dquote := Option.some.inj habs
      simp [dquote] at this

theorem cleanAt_of_space_or_nl {l : List Char} {p : Nat}
    (h : l.get? p = some ' ' ∨ l.get? p = some '\n' ∨ l.get? p = none) :
    CleanAt l p := by
  rcases h with h | h | h <;>
    refine ⟨?_, ?_, ?_, ?_⟩ <;> rw [h] <;> simp [dquote, squote] <;>
      intro habs <;> simp at habs

theorem put_get_unchanged (out : List Char) (a b p : Nat) (h : p < a ∨ b ≤ p) :
    (put_spaces out a b).get? p = out.get? p := by
  rw [get?_put_spaces]
  cases hc : out.get? p with
  | none => rfl
  | some c =>
    simp only [Option.map_some']
    rw [if_neg (by rintro ⟨x, y, -⟩; omega)]

theorem put_get_cases (out : List Char) (a b p : Nat) :
    (put_spaces out a b).get? p = out.get? p ∨ (put_spaces out a b).get? p = some ' ' := by
  rw [get?_put_spaces]
  cases hc : out.get? p with
  | none => exact Or.inl rfl
  | some c =>
    simp only [Option.map_some']
    by_cases hcond : a ≤ p ∧ p < b ∧ c ≠ '\n'
    · rw [if_pos hcond]; exact Or.inr rfl
    · rw [if_neg hcond]; exact Or.inl rfl

theorem put_get_masked (out : List Char) (a b p : Nat) (h1 : a ≤ p) (h2 : p < b) :
    (put_spaces out a b).get? p = some ' ' ∨ (put_spaces out a b).get? p = some '\n' ∨
      (put_spaces out a b).get? p = none := by
  rw [get?_put_spaces]
  cases hc : out.get? p with
  | none => exact Or.inr (Or.inr rfl)
  | some c =>
    simp only [Option.map_some']
    by_cases hn : c = '\n'
    · rw [if_neg (by rintro ⟨-, -, habs⟩; exact habs hn)]
      exact Or.inr (Or.inl (by rw [hn]))
    · rw [if_pos ⟨h1, h2, hn⟩]
      exact Or.inl rfl

/-- Stepping the clean invariant over one masked region `[i, e)`. -/
theorem clean_step (src out : List Char) (i e : Nat)
    (hlen : out.length = src.length)
    (H2 : ∀ p, p < i → CleanAt out p)
    (H3 : ∀ p, i ≤ p → out.get? p = src.get? p)
    (hie : i ≤ e) :
    ((put_spaces out i e).length = src.length) ∧
    (∀ p, p < e → CleanAt (put_spaces out i e) p) ∧
    (∀ p, e ≤ p → (put_spaces out i e).get? p = src.get? p) := by
  refine ⟨by simp [hlen], ?_, ?_⟩
  · intro p hp
    by_cases hpi : p < i
    · refine cleanAt_stable (H2 p hpi) ?_ ?_
      · exact put_get_unchanged out i e p (Or.inl hpi)
      · exact put_get_cases out i e (p + 1)
    · exact cleanAt_of_space_or_nl (put_get_masked out i e p (by omega) hp)
  · intro p hp
    rw [put_get_unchanged out i e p (Or.inr hp)]
    exact H3 p (by omega)

/-- Terminal masked region reaching the end of input leaves everything clean. -/
theorem clean_all (src out : List Char) (i : Nat)
    (hlen : out.length = src.length)
    (H2 : ∀ p, p < i → CleanAt out p)
    (H3 : ∀ p, i ≤ p → out.get? p = src.get? p)
    (hin : i ≤ src.length) :
    ∀ p, CleanAt (put_spaces out i src.length) p := by
  obtain ⟨h1', h2', h3'⟩ := clean_step src out i src.length hlen H2 H3 hin
  intro p
  by_cases hp : p < src.length
  · exact h2' p hp
  · refine cleanAt_of_space_or_nl (Or.inr (Or.inr ?_))
    rw [h3' p (by omega)]
    exact List.get?_eq_none.mpr (by omega)

/-- A position where no branch of the masker fires is clean. -/
theorem clean_here (src out : List Char) (i : Nat)
    (hlt : i < src.length)
    (H3 : ∀ p, i ≤ p → out.get? p = src.get? p)
    (h1 : ¬(src.getD i ' ' = '/' ∧ i + 1 < src.length ∧ src.getD (i + 1) ' ' = '/'))
    (h2 : ¬(src.getD i ' ' = '/' ∧ i + 1 < src.length ∧ src.getD (i + 1) ' ' = '*'))
    (h3 : ¬(src.getD i ' ' = dquote))
    (h4 : ¬(src.getD i ' ' = squote))
    (h5 : ¬(src.getD i ' ' = 'R' ∧ i + 1 < src.length ∧ src.getD (i + 1) ' ' = dquote)) :
    CleanAt out i := by
  have hgi : out.get? i = src.get? i := H3 i le_rfl
  have hsrc : src.get? i = some (src.getD i ' ') := get?_eq_some_getD src i hlt
  refine ⟨?_, ?_, ?_, ?_⟩
  · rw [hgi, hsrc]
    intro habs
    exact h3 (Option.some.inj habs)
  · rw [hgi, hsrc]
    intro habs
    exact h4 (Option.some.inj habs)
  · intro hc
    rw [hgi, hsrc] at hc
    have hc' := Option.some.inj hc
    constructor
    · intro habs
      rw [H3 (i + 1) (by omega)] at habs
      have hlt1 : i + 1 < src.length := by
        rcases List.get?_eq_some.mp habs with ⟨hl, -⟩
        exact hl
      rw [get?_eq_some_getD src (i + 1) hlt1] at habs
      exact h1 ⟨hc', hlt1, Option.some.inj habs⟩
    · intro habs
      rw [H3 (i + 1) (by omega)] at habs
      have hlt1 : i + 1 < src.length := by
        rcases List.get?_eq_some.mp habs with ⟨hl, -⟩
        exact hl
      rw [get?_eq_some_getD src (i + 1) hlt1] at habs
      exact h2 ⟨hc', hlt1, Option.some.inj habs⟩
  · intro hc
    rw [hgi, hsrc] at hc
    have hc' := Option.some.inj hc
    intro habs
    rw [H3 (i + 1) (by omega)] at habs
    have hlt1 : i + 1 < src.length := by
      rcases List.get?_eq_some.mp habs with ⟨hl, -⟩
      exact hl
    rw [get?_eq_some_getD src (i + 1) hlt1] at habs
    exact h5 ⟨hc', hlt1, Option.some.inj habs⟩

/-- The masker output is clean at every position. -/
theorem maskLoop_clean (src : List Char) : ∀ (i : Nat) (out : List Char),
    out.length = src.length →
    (∀ p, p < i → CleanAt out p) →
    (∀ p, i ≤ p → out.get? p = src.get? p) →
    ∀ p, CleanAt (maskLoop src i out) p := by
  intro i out
  induction i, out using maskLoop.induct src with
  | case1 i out hlt h1 ih =>
    intro hlen H2 H3
    rw [maskLoop]
    simp only [dif_pos hlt, if_pos h1]
    have hie : i ≤ scanToNl src (i + 2) := le_trans (by omega) (le_scanToNl src (i + 2))
    obtain ⟨g1, g2, g3⟩ := clean_step src out i (scanToNl src (i + 2)) hlen H2 H3 hie
    exact ih g1 g2 g3
  | case2 i out hlt h1 h2 ih =>
    intro hlen H2 H3
    rw [maskLoop]
    simp only [dif_pos hlt, if_neg h1, if_pos h2]
    have hie : i ≤ min src.length (scanBlock src (i + 2) + 2) := by
      have := le_scanBlock src (i + 2)
      omega
    obtain ⟨g1, g2, g3⟩ := clean_step src out i _ hlen H2 H3 hie
    exact ih g1 g2 g3
  | case3 i out hlt h1 h2 h3 ih =>
    intro hlen H2 H3
    rw [maskLoop]
    simp only [dif_pos hlt, if_neg h1, if_neg h2, if_pos h3]
    have hie : i ≤ scanLit src dquote (i + 1) :=
      le_trans (by omega) (le_scanLit src dquote (i + 1))
    obtain ⟨g1, g2, g3⟩ := clean_step src out i _ hlen H2 H3 hie
    exact ih g1 g2 g3
  | case4 i out hlt h1 h2 h3 h4 ih =>
    intro hlen H2 H3
    rw [maskLoop]
    simp only [dif_pos hlt, if_neg h1, if_neg h2, if_neg h3, if_pos h4]
    have hie : i ≤ scanLit src squote (i + 1) :=
      le_trans (by omega) (le_scanLit src squote (i + 1))
    obtain ⟨g1, g2, g3⟩ := clean_step src out i _ hlen H2 H3 hie
    exact ih g1 g2 g3
  | case5 i out hlt h1 h2 h3 h4 h5 hpar cp hf ih =>
    intro hlen H2 H3
    rw [maskLoop]
    simp only [dif_pos hlt, if_neg h1, if_neg h2, if_neg h3, if_neg h4, if_pos h5,
      if_pos hpar]
    split
    · next cp' heq =>
        obtain rfl : cp = cp' := Option.some.inj (hf.symm.trans heq)
        have hie : i ≤ cp + ((src.drop (i + 2)).take (scanToParen src (i + 2) - (i + 2))).length + 2 := by
          have := le_findSub src _ _ cp hf
          have := le_scanToParen src (i + 2)
          omega
        obtain ⟨g1, g2, g3⟩ := clean_step src out i _ hlen H2 H3 hie
        exact ih g1 g2 g3
    · next heq =>
        rw [hf] at heq
        cases heq
  | case6 i out hlt h1 h2 h3 h4 h5 hpar hf =>
    intro hlen H2 H3
    rw [maskLoop]
    simp only [dif_pos hlt, if_neg h1, if_neg h2, if_neg h3, if_neg h4, if_pos h5,
      if_pos hpar]
    split
    · next cp' heq =>
        rw [hf] at heq
        cases heq
    · next heq =>
        exact clean_all src out i hlen H2 H3 (by omega)
  | case7 i out hlt h1 h2 h3 h4 h5 hpar =>
    intro hlen H2 H3
    rw [maskLoop]
    simp only [dif_pos hlt, if_neg h1, if_neg h2, if_neg h3, if_neg h4, if_pos h5,
      if_neg hpar]
    exact clean_all src out i hlen H2 H3 (by omega)
  | case8 i out hlt h1 h2 h3 h4 h5 ih =>
    intro hlen H2 H3
    rw [maskLoop]
    simp only [dif_pos hlt, if_neg h1, if_neg h2, if_neg h3, if_neg h4, if_neg h5]
    refine ih hlen ?_ ?_
    · intro p hp
      by_cases hpi : p < i
      · exact H2 p hpi
      · have hpe : p = i := by omega
        rw [hpe]
        exact clean_here src out i hlt H3 h1 h2 h3 h4 h5
    · intro p hp
      exact H3 p (by omega)
  | case9 i out hlt =>
    intro hlen H2 H3
    rw [maskLoop]
    simp only [dif_neg hlt]
    intro p
    by_cases hp : p < i
    · exact H2 p hp
    · refine cleanAt_of_space_or_nl (Or.inr (Or.inr ?_))
      rw [H3 p (by omega)]
      exact List.get?_eq_none.mpr (by omega)

/-- On input that is clean everywhere the masking loop is the identity. -/
theorem maskLoop_inert (u : List Char) (hcl : ∀ p, CleanAt u p) :
    ∀ i, maskLoop u i u = u := by
  have key : ∀ (i : Nat) (out : List Char), out = u → maskLoop u i out = u := by
    intro i out
    induction i, out using maskLoop.induct u with
    | case1 i out hlt h1 ih =>
      intro _
      exfalso
      obtain ⟨hq, hsq, hsl, hr⟩ := hcl i
      obtain ⟨ha, hb, hc⟩ := h1
      exact (hsl (by rw [get?_eq_some_getD u i hlt, ha])).1
        (by rw [get?_eq_some_getD u (i + 1) hb, hc])
    | case2 i out hlt h1 h2 ih =>
      intro _
      exfalso
      obtain ⟨hq, hsq, hsl, hr⟩ := hcl i
      obtain ⟨ha, hb, hc⟩ := h2
      exact (hsl (by rw [get?_eq_some_getD u i hlt, ha])).2
        (by rw [get?_eq_some_getD u (i + 1) hb, hc])
    | case3 i out hlt h1 h2 h3 ih =>
      intro _
      exfalso
      exact (hcl i).1 (by rw [get?_eq_some_getD u i hlt, h3])
    | case4 i out hlt h1 h2 h3 h4 ih =>
      intro _
      exfalso
      exact (hcl i).2.1 (by rw [get?_eq_some_getD u i hlt, h4])
    | case5 i out hlt h1 h2 h3 h4 h5 hpar cp hf ih =>
      intro _
      exfalso
      obtain ⟨ha, hb, hc⟩ := h5
      exact (hcl i).2.2.2 (by rw [get?_eq_some_getD u i hlt, ha])
        (by rw [get?_eq_some_getD u (i + 1) hb, hc])
    | case6 i out hlt h1 h2 h3 h4 h5 hpar hf =>
      intro _
      exfalso
      obtain ⟨ha, hb, hc⟩ := h5
      exact (hcl i).2.2.2 (by rw [get?_eq_some_getD u i hlt, ha])
        (by rw [get?_eq_some_getD u (i + 1) hb, hc])
    | case7 i out hlt h1 h2 h3 h4 h5 hpar =>
      intro _
      exfalso
      obtain ⟨ha, hb, hc⟩ := h5
      exact (hcl i).2.2.2 (by rw [get?_eq_some_getD u i hlt, ha])
        (by rw [get?_eq_some_getD u (i + 1) hb, hc])
    | case8 i out hlt h1 h2 h3 h4 h5 ih =>
      intro hout
      rw [maskLoop]
      simp only [dif_pos hlt, if_neg h1, if_neg h2, if_neg h3, if_neg h4, if_neg h5]
      exact ih hout
    | case9 i out hlt =>
      intro hout
      rw [maskLoop]
      simp only [dif_neg hlt]
      exact hout
  intro i
  exact key i u rfl

/-- The masker's own output is clean everywhere. -/
theorem mask_output_clean (s : List Char) : ∀ p, CleanAt (mask_cpp_comments_and_strings s) p :=
  maskLoop_clean s 0 s rfl (fun p hp => absurd hp (by omega)) (fun _ _ => rfl)

instance (l : List Char) (p : Nat) : Decidable (CleanAt l p) := by
  unfold CleanAt
  infer_instance

/-- Cleanliness needs checking only below the length (everything past the end
is vacuously clean); this makes it decidable for concrete lists. -/
theorem cleanAt_of_forall_lt (u : List Char) (h : ∀ p, p < u.length → CleanAt u p) :
    ∀ p, CleanAt u p := by
  intro p
  by_cases hp : p < u.length
  · exact h p hp
  · exact cleanAt_of_space_or_nl (Or.inr (Or.inr (List.get?_eq_none.mpr (by omega))))

/-- Text without any comment or literal openers is left untouched by the
masker (used to evaluate it on concrete clean inputs). -/
theorem mask_eq_self_of_clean (u : List Char) (h : ∀ p, p < u.length → CleanAt u p) :
    mask_cpp_comments_and_strings u = u :=
  maskLoop_inert u (cleanAt_of_forall_lt u h) 0

/-- C9: `mask_cpp_comments_and_strings` is idempotent: applying the masker to
its own output leaves it unchanged. -/
theorem mask_cpp_idempotent (s : List Char) :
    mask_cpp_comments_and_strings (mask_cpp_comments_and_strings s)
      = mask_cpp_comments_and_strings s :=
  maskLoop_inert (mask_cpp_comments_and_strings s) (mask_output_clean s) 0

/-- Witness for the shape theorem: applied to the concrete input `"ab"`,
whose characters the masker keeps. -/
theorem mask_cpp_preserves_shape_witness : 'a' = 'a' ∨ ('a' = ' ' ∧ 'a' ≠ '\n') :=
  (mask_cpp_preserves_shape ("ab".toList)).2.1 0 'a' 'a' (by decide)
    (by rw [mask_eq_self_of_clean ("ab".toList) (by decide)]; decide)

/-! ## Identifier tokenizer (`IDENT_RE` + `iter_identifiers_with_pos`) -/

/-- Characters matching `[_A-Za-z0-9]` (the identifier continuation class). -/
def isWordChar (c : Char) : Bool :=
  c == '_' || (decide ('A' ≤ c) && decide (c ≤ 'Z')) ||
    (decide ('a' ≤ c) && decide (c ≤ 'z')) || (decide ('0' ≤ c) && decide (c ≤ '9'))

/-- Characters matching `[_A-Za-z]` (the identifier start class). -/
def isIdentStart (c : Char) : Bool :=
  c == '_' || (decide ('A' ≤ c) && decide (c ≤ 'Z')) || (decide ('a' ≤ c) && decide (c ≤ 'z'))

/-- Python's `\w` for `str` patterns (`IDENT_RE` is a `str` pattern, so its
`\b` is Unicode-aware): underscore plus every Unicode alphanumeric. The table
is exact through the Latin-1 block (ASCII `[_A-Za-z0-9]`; `ª µ º ¹ ² ³ ¼ ½ ¾`;
the Latin-1 letters `À`–`ÿ` except `×` and `÷`). Word characters above U+00FF
are not tabulated: all theorems below evaluate this predicate on ASCII and
Latin-1 text only. -/
def pyWordChar (c : Char) : Bool :=
  isWordChar c ||
    (c.toNat == 0xAA || c.toNat == 0xB2 || c.toNat == 0xB3 || c.toNat == 0xB5 ||
      c.toNat == 0xB9 || c.toNat == 0xBA || c.toNat == 0xBC || c.toNat == 0xBD ||
      c.toNat == 0xBE ||
      (decide (0xC0 ≤ c.toNat) && decide (c.toNat ≤ 0xFF) &&
        !(c.toNat == 0xD7) && !(c.toNat == 0xF7)))

theorem pyWordChar_ascii {c : Char} (h : c.toNat < 128) :
    pyWordChar c = isWordChar c := by
  have hx : (c.toNat == 0xAA || c.toNat == 0xB2 || c.toNat == 0xB3 || c.toNat == 0xB5 ||
      c.toNat == 0xB9 || c.toNat == 0xBA || c.toNat == 0xBC || c.toNat == 0xBD ||
      c.toNat == 0xBE ||
      (decide (0xC0 ≤ c.toNat) && decide (c.toNat ≤ 0xFF) &&
        !(c.toNat == 0xD7) && !(c.toNat == 0xF7))) = false := by
    simp only [Bool.or_eq_false_iff, beq_eq_false_iff_ne, ne_eq, Bool.and_eq_false_iff,
      decide_eq_false_iff_not, not_le]
    omega
  rw [pyWordChar, hx, Bool.or_false]

theorem isWordChar_of_isIdentStart {c : Char} (h : isIdentStart c = true) :
    isWordChar c = true := by
  simp only [isIdentStart, Bool.or_eq_true, Bool.and_eq_true, decide_eq_true_eq] at h
  simp only [isWordChar, Bool.or_eq_true, Bool.and_eq_true, decide_eq_true_eq]
  tauto

/-- Length of the maximal run of word characters at the head of a list. -/
def wordRunLen : List Char → Nat
  | [] => 0
  | c :: r => if isWordChar c then wordRunLen r + 1 else 0

theorem wordRunLen_le (l : List Char) : wordRunLen l ≤ l.length := by
  induction l with
  | nil => simp [wordRunLen]
  | cons c r ih =>
    simp only [wordRunLen]
    split <;> simp <;> omega

theorem wordRunLen_word (l : List Char) : ∀ q, q < wordRunLen l →
    isWordChar (l.getD q ' ') = true := by
  induction l with
  | nil => intro q h; simp [wordRunLen] at h
  | cons c r ih =>
    intro q h
    simp only [wordRunLen] at h
    by_cases hc : isWordChar c = true
    · rw [if_pos hc] at h
      cases q with
      | zero => exact hc
      | succ q => exact ih q (by omega)
    · rw [if_neg hc] at h
      omega

theorem wordRunLen_stop (l : List Char) :
    wordRunLen l = l.length ∨ isWordChar (l.getD (wordRunLen l) ' ') = false := by
  induction l with
  | nil => exact Or.inl rfl
  | cons c r ih =>
    simp only [wordRunLen]
    by_cases hc : isWordChar c = true
    · rw [if_pos hc]
      rcases ih with h | h
      · exact Or.inl (by simp [h])
      · exact Or.inr (by simpa using h)
    · rw [if_neg hc]
      exact Or.inr (by simpa using Bool.of_not_eq_true hc)

theorem wordRunLen_unique (l : List Char) : ∀ len : Nat,
    (∀ q, q < len → isWordChar (l.getD q ' ') = true) →
    (len = l.length ∨ isWordChar (l.getD len ' ') = false) →
    len = wordRunLen l := by
  induction l with
  | nil =>
    intro len h1 h2
    simp only [List.length_nil] at h2
    rcases h2 with h | h
    · simp [h, wordRunLen]
    · cases len with
      | zero => rfl
      | succ n =>
        have := h1 0 (by omega)
        simp [List.getD] at this h
        rw [this] at h
        cases h
  | cons c r ih =>
    intro len h1 h2
    cases len with
    | zero =>
      simp only [wordRunLen]
      rcases h2 with h | h
      · simp at h
      · simp only [List.getD_cons_zero] at h
        rw [if_neg (by simp [h])]
    | succ n =>
      have hc : isWordChar c = true := by
        have := h1 0 (by omega)
        simpa using this
      simp only [wordRunLen, if_pos hc]
      have : n = wordRunLen r := by
        apply ih n
        · intro q hq
          have := h1 (q + 1) (by omega)
          simpa using this
        · rcases h2 with h | h
          · exact Or.inl (by simpa using h)
          · exact Or.inr (by simpa using h)
      omega

/-- Line terminators recognized by Python `str.splitlines`. -/
def isLineBreakChar (c : Char) : Bool :=
  c == '\n' || c == '\r' || c == Char.ofNat 11 || c == Char.ofNat 12 ||
    c == Char.ofNat 28 || c == Char.ofNat 29 || c == Char.ofNat 30 ||
    c == Char.ofNat 133 || c == Char.ofNat 8232 || c == Char.ofNat 8233

/-- Python `str.splitlines`: split at line terminators (with `\r\n` counting
as a single break); a trailing fragment without terminator forms a line. -/
def py_splitlines : List Char → List (List Char)
  | [] => []
  | c :: rest =>
    if c = '\r' then
      match rest with
      | [] => [[]]
      | n1 :: rest2 =>
        if n1 = '\n' then [] :: py_splitlines rest2
        else [] :: py_splitlines (n1 :: rest2)
    else if isLineBreakChar c then [] :: py_splitlines rest
    else
      match py_splitlines rest with
      | [] => [[c]]
      | l :: ls => (c :: l) :: ls

/-- `enumerate(..., start=n)`. -/
def idxFrom {α : Type} : Nat → List α → List (Nat × α)
  | _, [] => []
  | n, a :: l => (n, a) :: idxFrom (n + 1) l

/-- The spec's ASCII reading of the per-line scan: maximal `[_A-Za-z0-9]` runs
whose first character is in `[_A-Za-z]`, with `\b` taken as the ASCII word
boundary. `p` is the absolute position of the head of `l` and `prevW` records
whether the previous character was an ASCII word character. The faithful
scanner, with the regex's Unicode-aware `\b`, is `lineTokensRe` below. -/
def lineTokensGo : List Char → Nat → Bool → List (List Char × Nat)
  | [], _, _ => []
  | c :: rest, p, prevW =>
    if isIdentStart c = true ∧ prevW = false then
      (c :: rest.take (wordRunLen rest), p) :: lineTokensGo rest (p + 1) true
    else lineTokensGo rest (p + 1) (isWordChar c)

/-- Scan one line for `IDENT_RE` matches, returning (token, 0-based start).
The matched run itself uses the pattern's explicit ASCII classes, but both
`\b` assertions use Python's Unicode `\w` (`pyWordChar`): a candidate run is
rejected when the preceding or the following character is any Unicode word
character. `prevW` is the `\w`-status of the previous character. -/
def lineTokensRe : List Char → Nat → Bool → List (List Char × Nat)
  | [], _, _ => []
  | c :: rest, p, prevW =>
    if isIdentStart c = true ∧ prevW = false ∧
        pyWordChar ((rest.drop (wordRunLen rest)).headD ' ') = false then
      (c :: rest.take (wordRunLen rest), p) :: lineTokensRe rest (p + 1) true
    else lineTokensRe rest (p + 1) (pyWordChar c)

/-- `iter_identifiers_with_pos` from the source: tokens with 1-based line and
column, line by line, left to right. -/
def iter_identifiers_with_pos (text : List Char) : List (List Char × Nat × Nat) :=
  (idxFrom 1 (py_splitlines text)).flatMap
    (fun pr => (lineTokensRe pr.2 0 false).map (fun t => (t.1, pr.1, t.2 + 1)))

/-- The tokenizer as the spec reads it: maximal ASCII identifier runs with an
ASCII `\b`. Compared against `iter_identifiers_with_pos` in the refutation. -/
def iter_identifiers_ascii_spec (text : List Char) : List (List Char × Nat × Nat) :=
  (idxFrom 1 (py_splitlines text)).flatMap
    (fun pr => (lineTokensGo pr.2 0 false).map (fun t => (t.1, pr.1, t.2 + 1)))

/-- Declarative tokenization spec relative to a suffix of the line: `tok` is a
maximal word-character run starting at offset `off` whose first character is in
the start class; `w` is the word-character status of the preceding character. -/
def RelSpec (l : List Char) (w : Bool) (tok : List Char) (off : Nat) : Prop :=
  tok = (l.drop off).take tok.length ∧ 0 < tok.length ∧ off + tok.length ≤ l.length ∧
  isIdentStart (l.getD off ' ') = true ∧
  (∀ q, off ≤ q → q < off + tok.length → isWordChar (l.getD q ' ') = true) ∧
  (off = 0 → w = false) ∧
  (0 < off → isWordChar (l.getD (off - 1) ' ') = false) ∧
  (off + tok.length = l.length ∨ isWordChar (l.getD (off + tok.length) ' ') = false)

/-- Tokens on a full line: maximal runs in the sense of the claim. -/
def TokenAt (line : List Char) (s len : Nat) : Prop :=
  0 < len ∧ s + len ≤ line.length ∧
  isIdentStart (line.getD s ' ') = true ∧
  (∀ q, s ≤ q → q < s + len → isWordChar (line.getD q ' ') = true) ∧
  (s = 0 ∨ isWordChar (line.getD (s - 1) ' ') = false) ∧
  (s + len = line.length ∨ isWordChar (line.getD (s + len) ' ') = false)

theorem relSpec_up (c : Char) (rest : List Char) (w w' : Bool) (tok : List Char) (off' : Nat)
    (h : RelSpec rest w' tok off')
    (hflag : off' = 0 → isWordChar c = false) :
    RelSpec (c :: rest) w tok (off' + 1) := by
  obtain ⟨h1, h2, h3, h4, h5, h6, h7, h8⟩ := h
  refine ⟨?_, h2, ?_, ?_, ?_, ?_, ?_, ?_⟩
  · rw [List.drop_succ_cons]; exact h1
  · simp only [List.length_cons]; omega
  · rw [List.getD_cons_succ]; exact h4
  · intro q hq1 hq2
    cases q with
    | zero => omega
    | succ q =>
      rw [List.getD_cons_succ]
      exact h5 q (by omega) (by omega)
  · intro habs; omega
  · intro _
    simp only [Nat.add_sub_cancel]
    cases hoz : off' with
    | zero => rw [List.getD_cons_zero]; exact hflag hoz
    | succ q =>
      rw [hoz] at h7
      rw [List.getD_cons_succ]
      have := h7 (by omega)
      simpa [hoz] using this
  · rcases h8 with h | h
    · exact Or.inl (by simp only [List.length_cons]; omega)
    · right
      rw [show off' + 1 + tok.length = (off' + tok.length) + 1 from by omega,
        List.getD_cons_succ]
      exact h

theorem relSpec_down (c : Char) (rest : List Char) (w w' : Bool) (tok : List Char) (off' : Nat)
    (h : RelSpec (c :: rest) w tok (off' + 1))
    (hflag : off' = 0 → w' = false) :
    RelSpec rest w' tok off' := by
  obtain ⟨h1, h2, h3, h4, h5, h6, h7, h8⟩ := h
  refine ⟨?_, h2, ?_, ?_, ?_, hflag, ?_, ?_⟩
  · rw [List.drop_succ_cons] at h1; exact h1
  · simp only [List.length_cons] at h3; omega
  · rw [List.getD_cons_succ] at h4; exact h4
  · intro q hq1 hq2
    have := h5 (q + 1) (by omega) (by omega)
    rwa [List.getD_cons_succ] at this
  · intro hq
    have := h7 (by omega)
    simp only [Nat.add_sub_cancel] at this
    cases hoz : off' with
    | zero => omega
    | succ q =>
      rw [hoz] at this
      rwa [List.getD_cons_succ] at this
  · rcases h8 with h | h
    · exact Or.inl (by simp only [List.length_cons] at h; omega)
    · right
      rw [show off' + 1 + tok.length = (off' + tok.length) + 1 from by omega,
        List.getD_cons_succ] at h
      exact h

theorem relSpec_head (c : Char) (rest : List Char) (w : Bool) (hw : w = false)
    (hid : isIdentStart c = true) :
    RelSpec (c :: rest) w (c :: rest.take (wordRunLen rest)) 0 := by
  have hm := wordRunLen_le rest
  have hlen : (c :: rest.take (wordRunLen rest)).length = wordRunLen rest + 1 := by
    simp only [List.length_cons, List.length_take]
    omega
  refine ⟨?_, by simp, ?_, ?_, ?_, fun _ => hw, ?_, ?_⟩
  · rw [List.drop_zero, hlen, List.take_succ_cons]
  · rw [hlen]
    simp only [List.length_cons]
    omega
  · rw [List.getD_cons_zero]; exact hid
  · intro q hq1 hq2
    rw [hlen] at hq2
    cases q with
    | zero => rw [List.getD_cons_zero]; exact isWordChar_of_isIdentStart hid
    | succ q =>
      rw [List.getD_cons_succ]
      exact wordRunLen_word rest q (by omega)
  · intro habs; omega
  · rw [hlen]
    simp only [Nat.zero_add]
    rcases wordRunLen_stop rest with h | h
    · exact Or.inl (by simp only [List.length_cons]; omega)
    · right
      rw [List.getD_cons_succ]
      exact h

theorem relSpec_zero_eq (c : Char) (rest : List Char) (w : Bool) (tok : List Char)
    (h : RelSpec (c :: rest) w tok 0) :
    tok = c :: rest.take (wordRunLen rest) := by
  obtain ⟨h1, h2, h3, h4, h5, h6, h7, h8⟩ := h
  have hlen : tok.length - 1 = wordRunLen rest := by
    apply wordRunLen_unique
    · intro q hq
      have := h5 (q + 1) (by omega) (by omega)
      rwa [List.getD_cons_succ] at this
    · rcases h8 with h | h
      · left
        simp only [List.length_cons] at h
        omega
      · right
        rw [show (0 : Nat) + tok.length = (tok.length - 1) + 1 from by omega,
          List.getD_cons_succ] at h
        exact h
  rw [List.drop_zero] at h1
  rw [h1, show tok.length = (tok.length - 1) + 1 from by omega, List.take_succ_cons, hlen]

/-- Characterization of line scanning: the scanner yields exactly the offsets
satisfying the maximal-run specification. -/
theorem lineTokensGo_mem : ∀ (l : List Char) (p : Nat) (w : Bool) (tok : List Char) (s : Nat),
    (tok, s) ∈ lineTokensGo l p w ↔ ∃ off, s = p + off ∧ RelSpec l w tok off := by
  intro l
  induction l with
  | nil =>
    intro p w tok s
    simp only [lineTokensGo, List.not_mem_nil, false_iff, not_exists]
    rintro off ⟨-, -, h2, h3, -⟩
    simp only [List.length_nil] at h3
    omega
  | cons c rest ih =>
    intro p w tok s
    by_cases hm : isIdentStart c = true ∧ w = false
    · rw [show lineTokensGo (c :: rest) p w
          = (c :: rest.take (wordRunLen rest), p) :: lineTokensGo rest (p + 1) true from by
        rw [lineTokensGo, if_pos hm]]
      rw [List.mem_cons, ih]
      constructor
      · rintro (heq | ⟨off', hs, hspec⟩)
        · rw [Prod.mk.injEq] at heq
          obtain ⟨htok, hs⟩ := heq
          refine ⟨0, by omega, ?_⟩
          rw [htok]
          exact relSpec_head c rest w hm.2 hm.1
        · refine ⟨off' + 1, by omega, ?_⟩
          refine relSpec_up c rest w true tok off' hspec ?_
          intro h0
          exact absurd (hspec.2.2.2.2.2.1 h0) (by simp)
      · rintro ⟨off, hs, hspec⟩
        cases off with
        | zero =>
          left
          rw [Prod.mk.injEq]
          exact ⟨relSpec_zero_eq c rest w tok hspec, by omega⟩
        | succ off' =>
          right
          refine ⟨off', by omega, ?_⟩
          refine relSpec_down c rest w true tok off' hspec ?_
          intro h0
          exfalso
          have hpred := hspec.2.2.2.2.2.2.1 (by omega)
          rw [h0] at hpred
          simp only [Nat.add_sub_cancel, List.getD_cons_zero] at hpred
          rw [isWordChar_of_isIdentStart hm.1] at hpred
          cases hpred
    · rw [show lineTokensGo (c :: rest) p w = lineTokensGo rest (p + 1) (isWordChar c) from by
        rw [lineTokensGo, if_neg hm]]
      rw [ih]
      constructor
      · rintro ⟨off', hs, hspec⟩
        refine ⟨off' + 1, by omega, ?_⟩
        refine relSpec_up c rest w (isWordChar c) tok off' hspec ?_
        intro h0
        exact hspec.2.2.2.2.2.1 h0
      · rintro ⟨off, hs, hspec⟩
        cases off with
        | zero =>
          exfalso
          obtain ⟨-, -, -, h4, -, h6, -, -⟩ := hspec
          rw [List.getD_cons_zero] at h4
          exact hm ⟨h4, h6 rfl⟩
        | succ off' =>
          refine ⟨off', by omega, ?_⟩
          refine relSpec_down c rest w (isWordChar c) tok off' hspec ?_
          intro h0
          have hpred := hspec.2.2.2.2.2.2.1 (by omega)
          rw [h0] at hpred
          simpa using hpred

theorem lineTokens_mem_iff (line tok : List Char) (s : Nat) :
    (tok, s) ∈ lineTokensGo line 0 false ↔
      tok = (line.drop s).take tok.length ∧ TokenAt line s tok.length := by
  rw [lineTokensGo_mem]
  constructor
  · rintro ⟨off, hs, h1, h2, h3, h4, h5, -, h7, h8⟩
    obtain rfl : off = s := by omega
    refine ⟨h1, h2, h3, h4, fun q hq1 hq2 => h5 q hq1 hq2, ?_, h8⟩
    by_cases h0 : off = 0
    · exact Or.inl h0
    · exact Or.inr (h7 (by omega))
  · rintro ⟨h1, h2, h3, h4, h5, h6, h7⟩
    refine ⟨s, by omega, h1, h2, h3, h4, h5, fun _ => rfl, ?_, h7⟩
    intro hpos
    rcases h6 with h0 | h0
    · omega
    · exact h0

theorem idxFrom_mem {α : Type} : ∀ (l : List α) (n i : Nat) (a : α),
    (i, a) ∈ idxFrom n l ↔ n ≤ i ∧ l.get? (i - n) = some a := by
  intro l
  induction l with
  | nil =>
    intro n i a
    simp [idxFrom]
  | cons x l ih =>
    intro n i a
    simp only [idxFrom, List.mem_cons, Prod.mk.injEq, ih]
    constructor
    · rintro (⟨rfl, rfl⟩ | ⟨hn, hget⟩)
      · simp
      · refine ⟨by omega, ?_⟩
        rw [show i - n = (i - (n + 1)) + 1 from by omega, List.get?_cons_succ]
        exact hget
    · rintro ⟨hn, hget⟩
      by_cases hi : i = n
      · subst hi
        simp only [Nat.sub_self, List.get?_cons_zero, Option.some.injEq] at hget
        exact Or.inl ⟨rfl, hget.symm⟩
      · right
        refine ⟨by omega, ?_⟩
        rw [show i - n = (i - (n + 1)) + 1 from by omega, List.get?_cons_succ] at hget
        exact hget

/-- Membership characterization for the spec-side tokenizer. -/
theorem iter_identifiers_mem (text tok : List Char) (ln col : Nat) :
    (tok, ln, col) ∈ iter_identifiers_ascii_spec text ↔
      (1 ≤ ln ∧ 1 ≤ col ∧ ∃ line, (py_splitlines text).get? (ln - 1) = some line ∧
        tok = (line.drop (col - 1)).take tok.length ∧ TokenAt line (col - 1) tok.length) := by
  unfold iter_identifiers_ascii_spec
  rw [List.mem_flatMap]
  constructor
  · rintro ⟨⟨i, line⟩, hmem, hmap⟩
    rw [List.mem_map] at hmap
    obtain ⟨⟨tk, s⟩, htk, heq⟩ := hmap
    simp only [Prod.mk.injEq] at heq
    obtain ⟨rfl, rfl, rfl⟩ := heq
    rw [idxFrom_mem] at hmem
    obtain ⟨hi, hget⟩ := hmem
    rw [lineTokens_mem_iff] at htk
    exact ⟨by omega, by omega, line, by simpa using hget, by simpa using htk.1,
      by simpa using htk.2⟩
  · rintro ⟨hln, hcol, line, hget, htok, hat⟩
    refine ⟨(ln, line), ?_, ?_⟩
    · rw [idxFrom_mem]
      exact ⟨hln, by simpa using hget⟩
    · rw [List.mem_map]
      refine ⟨(tok, col - 1), ?_, ?_⟩
      · rw [lineTokens_mem_iff]
        exact ⟨htok, hat⟩
      · simp only [Prod.mk.injEq]
        exact ⟨trivial, trivial, by omega⟩

theorem lineTokensGo_sorted : ∀ (l : List Char) (p : Nat) (w : Bool),
    (∀ t ∈ lineTokensGo l p w, p ≤ t.2) ∧
    List.Pairwise (fun t u : List Char × Nat => t.2 < u.2) (lineTokensGo l p w) := by
  intro l
  induction l with
  | nil => intro p w; simp [lineTokensGo]
  | cons c rest ih =>
    intro p w
    by_cases hm : isIdentStart c = true ∧ w = false
    · rw [show lineTokensGo (c :: rest) p w
          = (c :: rest.take (wordRunLen rest), p) :: lineTokensGo rest (p + 1) true from by
        rw [lineTokensGo, if_pos hm]]
      obtain ⟨ih1, ih2⟩ := ih (p + 1) true
      constructor
      · intro t ht
        rcases List.mem_cons.mp ht with rfl | ht
        · exact le_rfl
        · exact le_trans (by omega) (ih1 t ht)
      · rw [List.pairwise_cons]
        refine ⟨fun u hu => ?_, ih2⟩
        have := ih1 u hu
        simp only []
        omega
    · rw [show lineTokensGo (c :: rest) p w = lineTokensGo rest (p + 1) (isWordChar c) from by
        rw [lineTokensGo, if_neg hm]]
      obtain ⟨ih1, ih2⟩ := ih (p + 1) (isWordChar c)
      exact ⟨fun t ht => le_trans (by omega) (ih1 t ht), ih2⟩

/-- Report order: strictly increasing (line, column) lexicographically. -/
def tokOrder (t u : List Char × Nat × Nat) : Prop :=
  t.2.1 < u.2.1 ∨ (t.2.1 = u.2.1 ∧ t.2.2 < u.2.2)

theorem iter_flat_ln_ge (ls : List (List Char)) (n : Nat) (u : List Char × Nat × Nat)
    (hu : u ∈ (idxFrom n ls).flatMap
      (fun pr => (lineTokensGo pr.2 0 false).map (fun t => (t.1, pr.1, t.2 + 1)))) :
    n ≤ u.2.1 := by
  rw [List.mem_flatMap] at hu
  obtain ⟨⟨i, line⟩, hmem, hmap⟩ := hu
  rw [idxFrom_mem] at hmem
  rw [List.mem_map] at hmap
  obtain ⟨t, -, rfl⟩ := hmap
  simpa using hmem.1

theorem iter_pairwise_aux : ∀ (ls : List (List Char)) (n : Nat),
    List.Pairwise tokOrder ((idxFrom n ls).flatMap
      (fun pr => (lineTokensGo pr.2 0 false).map (fun t => (t.1, pr.1, t.2 + 1)))) := by
  intro ls
  induction ls with
  | nil => intro n; simp [idxFrom]
  | cons line ls ih =>
    intro n
    simp only [idxFrom, List.flatMap_cons]
    rw [List.pairwise_append]
    refine ⟨?_, ih (n + 1), ?_⟩
    · refine List.Pairwise.map _ (fun a b hab => ?_) (lineTokensGo_sorted line 0 false).2
      exact Or.inr ⟨rfl, by simpa using by omega⟩
    · intro a ha b hb
      have hbln := iter_flat_ln_ge ls (n + 1) b hb
      rw [List.mem_map] at ha
      obtain ⟨t, -, rfl⟩ := ha
      exact Or.inl (by simp only []; omega)

theorem headD_drop {α : Type} (d : α) : ∀ (l : List α) (k : Nat),
    (l.drop k).headD d = l.getD k d := by
  intro l
  induction l with
  | nil => intro k; cases k <;> rfl
  | cons x r ih =>
    intro k
    cases k with
    | zero => rfl
    | succ k =>
      rw [List.drop_succ_cons, ih k]
      rfl

theorem lineTokensRe_ascii : ∀ (l : List Char) (p : Nat) (w : Bool),
    (∀ c ∈ l, c.toNat < 128) → lineTokensRe l p w = lineTokensGo l p w := by
  intro l
  induction l with
  | nil => intro p w h; rfl
  | cons c rest ih =>
    intro p w h
    have hc : c.toNat < 128 := h c (List.mem_cons_self _ _)
    have hrest : ∀ c' ∈ rest, c'.toNat < 128 := fun c' hc' => h c' (List.mem_cons_of_mem _ hc')
    have htr : pyWordChar ((rest.drop (wordRunLen rest)).headD ' ') = false := by
      rw [headD_drop]
      by_cases hlt : wordRunLen rest < rest.length
      · have hmem : rest.getD (wordRunLen rest) ' ' ∈ rest := by
          rw [List.getD_eq_getElem?_getD, List.getElem?_eq_getElem hlt]
          exact List.get_mem rest _ _
        rw [pyWordChar_ascii (hrest _ hmem)]
        rcases wordRunLen_stop rest with hstop | hstop
        · omega
        · exact hstop
      · rw [List.getD_eq_default _ _ (by omega)]
        rfl
    rw [lineTokensRe, lineTokensGo]
    by_cases hm : isIdentStart c = true ∧ w = false
    · rw [if_pos ⟨hm.1, hm.2, htr⟩, if_pos hm, ih (p + 1) true hrest]
    · rw [if_neg (fun hnew => hm ⟨hnew.1, hnew.2.1⟩), if_neg hm, pyWordChar_ascii hc,
        ih (p + 1) (isWordChar c) hrest]

theorem py_splitlines_subset_aux : ∀ (n : Nat) (text : List Char), text.length ≤ n →
    ∀ line ∈ py_splitlines text, ∀ c ∈ line, c ∈ text := by
  intro n
  induction n with
  | zero =>
    intro text hlen line hline c hc
    obtain rfl : text = [] := List.length_eq_zero.mp (by omega)
    cases hline
  | succ n ih =>
    intro text hlen line hline c hc
    cases text with
    | nil => cases hline
    | cons c0 rest =>
      simp only [List.length_cons] at hlen
      rw [py_splitlines.eq_def] at hline
      dsimp only at hline
      by_cases hr : c0 = '\r'
      · rw [if_pos hr] at hline
        cases rest with
        | nil =>
          dsimp only at hline
          rcases List.mem_singleton.mp hline with rfl
          cases hc
        | cons n1 rest2 =>
          dsimp only at hline
          simp only [List.length_cons] at hlen
          by_cases hn : n1 = '\n'
          · rw [if_pos hn] at hline
            rcases List.mem_cons.mp hline with rfl | hline
            · cases hc
            · exact List.mem_cons_of_mem _ (List.mem_cons_of_mem _
                (ih rest2 (by omega) line hline c hc))
          · rw [if_neg hn] at hline
            rcases List.mem_cons.mp hline with rfl | hline
            · cases hc
            · exact List.mem_cons_of_mem _
                (ih (n1 :: rest2) (by simp; omega) line hline c hc)
      · rw [if_neg hr] at hline
        by_cases hb : isLineBreakChar c0 = true
        · rw [if_pos hb] at hline
          rcases List.mem_cons.mp hline with rfl | hline
          · cases hc
          · exact List.mem_cons_of_mem _ (ih rest (by omega) line hline c hc)
        · rw [if_neg hb] at hline
          cases hps : py_splitlines rest with
          | nil =>
            simp only [hps] at hline
            rcases List.mem_singleton.mp hline with rfl
            rcases List.mem_singleton.mp hc with rfl
            exact List.mem_cons_self _ _
          | cons l ls =>
            simp only [hps] at hline
            rcases List.mem_cons.mp hline with rfl | hline
            · rcases List.mem_cons.mp hc with rfl | hc
              · exact List.mem_cons_self _ _
              · exact List.mem_cons_of_mem _ (ih rest (by omega) l
                  (by rw [hps]; exact List.mem_cons_self _ _) c hc)
            · exact List.mem_cons_of_mem _ (ih rest (by omega) line
                (by rw [hps]; exact List.mem_cons_of_mem _ hline) c hc)

theorem py_splitlines_subset (text : List Char) :
    ∀ line ∈ py_splitlines text, ∀ c ∈ line, c ∈ text :=
  py_splitlines_subset_aux text.length text le_rfl

theorem iter_identifiers_ascii (text : List Char) (h : ∀ c ∈ text, c.toNat < 128) :
    iter_identifiers_with_pos text = iter_identifiers_ascii_spec text := by
  unfold iter_identifiers_with_pos iter_identifiers_ascii_spec
  have key : ∀ (ls : List (List Char)) (n : Nat),
      (∀ line ∈ ls, ∀ c ∈ line, c.toNat < 128) →
      (idxFrom n ls).flatMap
          (fun pr => (lineTokensRe pr.2 0 false).map (fun t => (t.1, pr.1, t.2 + 1))) =
        (idxFrom n ls).flatMap
          (fun pr => (lineTokensGo pr.2 0 false).map (fun t => (t.1, pr.1, t.2 + 1))) := by
    intro ls
    induction ls with
    | nil => intro n hls; rfl
    | cons line ls ih =>
      intro n hls
      simp only [idxFrom, List.flatMap_cons]
      rw [lineTokensRe_ascii line 0 false (hls line (List.mem_cons_self _ _)),
        ih (n + 1) (fun l hl => hls l (List.mem_cons_of_mem _ hl))]
  exact key (py_splitlines text) 1
    (fun line hline c hc => h c (py_splitlines_subset text line hline c hc))

/-- C3 (amended): over ASCII text — where the regex's Unicode-aware `\b`
coincides with the ASCII word boundary — the tokenizer yields exactly the
maximal identifier runs (start character in `[_A-Za-z]`, continuation in
`[_A-Za-z0-9]`), as (token, 1-based line, 1-based column), in left-to-right
top-to-bottom order; in particular `foo_bar2 BAR` yields
[("foo_bar2",1,1), ("BAR",1,10)]. On non-ASCII text the program rejects runs
abutting Unicode word characters, refuting the unrestricted claim (see the
counterexample). -/
theorem iter_identifiers_characterization (text : List Char)
    (hascii : ∀ c ∈ text, c.toNat < 128) :
    (∀ tok ln col, (tok, ln, col) ∈ iter_identifiers_with_pos text ↔
      (1 ≤ ln ∧ 1 ≤ col ∧ ∃ line, (py_splitlines text).get? (ln - 1) = some line ∧
        tok = (line.drop (col - 1)).take tok.length ∧ TokenAt line (col - 1) tok.length)) ∧
    List.Pairwise tokOrder (iter_identifiers_with_pos text) ∧
    iter_identifiers_with_pos ("foo_bar2 BAR".toList)
      = [("foo_bar2".toList, 1, 1), ("BAR".toList, 1, 10)] := by
  rw [iter_identifiers_ascii text hascii]
  refine ⟨fun tok ln col => iter_identifiers_mem text tok ln col, ?_, by decide⟩
  exact iter_pairwise_aux (py_splitlines text) 1

/-- Witness: the characterization applied to the ASCII text `foo_bar2 BAR`. -/
theorem iter_identifiers_characterization_witness :
    iter_identifiers_with_pos ("foo_bar2 BAR".toList)
      = [("foo_bar2".toList, 1, 1), ("BAR".toList, 1, 10)] :=
  (iter_identifiers_characterization ("foo_bar2 BAR".toList) (by decide)).2.2

/-- C3 counterexample: on `aé` the program yields no token — `é` is a Unicode
word character, so the trailing `\b` after `a` fails — while the spec's ASCII
maximal-run reading yields ("a",1,1). -/
theorem iter_identifiers_unicode_cex :
    iter_identifiers_with_pos ("aé".toList) = [] ∧
    iter_identifiers_ascii_spec ("aé".toList) = [("a".toList, 1, 1)] := by
  constructor
  · decide
  · decide

/-! ## Data structures and association-list model of Python dicts -/

/-- One recorded location of a token. -/
structure Occurrence where
  path : List Char
  line : Nat
  col : Nat
deriving DecidableEq

/-- Per-token aggregate in near mode: token text, total count, capped list of
locations. -/
structure NearTokenAggregate where
  token : List Char
  count : Nat
  locs : List Occurrence
deriving DecidableEq

/-- Inner dict: token text → aggregate (insertion-ordered, like Python dicts). -/
abbrev TokenMap := List (List Char × NearTokenAggregate)

/-- Outer dict: distance → token map. -/
abbrev NearMap := List (Nat × TokenMap)

/-- First-match lookup in an insertion-ordered association list. -/
def alookup {α β : Type} [DecidableEq α] : List (α × β) → α → Option β
  | [], _ => none
  | (k, v) :: r, key => if k = key then some v else alookup r key

/-- In-place update (or append) in an insertion-ordered association list;
models `dict.setdefault` followed by mutation. -/
def aupdate {α β : Type} [DecidableEq α] (l : List (α × β)) (key : α)
    (f : Option β → β) : List (α × β) :=
  match l with
  | [] => [(key, f none)]
  | (k, v) :: r => if k = key then (k, f (some v)) :: r else (k, v) :: aupdate r key f

theorem alookup_aupdate_self {α β : Type} [DecidableEq α] :
    ∀ (l : List (α × β)) (key : α) (f : Option β → β),
      alookup (aupdate l key f) key = some (f (alookup l key)) := by
  intro l
  induction l with
  | nil => intro key f; simp [alookup, aupdate]
  | cons kv r ih =>
    intro key f
    obtain ⟨k, v⟩ := kv
    by_cases hk : k = key
    · simp [aupdate, alookup, if_pos hk, hk]
    · simp only [aupdate, alookup, if_neg hk]
      exact ih key f

theorem alookup_aupdate_ne {α β : Type} [DecidableEq α] :
    ∀ (l : List (α × β)) (key k' : α) (f : Option β → β), k' ≠ key →
      alookup (aupdate l key f) k' = alookup l k' := by
  intro l
  induction l with
  | nil =>
    intro key k' f hne
    simp [alookup, aupdate, if_neg (Ne.symm hne)]
  | cons kv r ih =>
    intro key k' f hne
    obtain ⟨k, v⟩ := kv
    by_cases hk : k = key
    · subst hk
      simp [aupdate, alookup, if_neg (Ne.symm hne)]
    · simp only [aupdate, if_neg hk, alookup]
      by_cases hk' : k = k'
      · simp [if_pos hk']
      · simp only [if_neg hk']
        exact ih key k' f hne

theorem aupdate_entries {α β : Type} [DecidableEq α] :
    ∀ (l : List (α × β)) (key : α) (f : Option β → β) (q : α × β),
      q ∈ aupdate l key f → q ∈ l ∨ q = (key, f (alookup l key)) := by
  intro l
  induction l with
  | nil =>
    intro key f q hq
    simp only [aupdate, List.mem_singleton] at hq
    exact Or.inr (by rw [hq]; rfl)
  | cons kv r ih =>
    intro key f q hq
    obtain ⟨k, v⟩ := kv
    by_cases hk : k = key
    · rw [aupdate, if_pos hk] at hq
      rcases List.mem_cons.mp hq with rfl | hq
      · refine Or.inr ?_
        rw [hk, alookup, if_pos rfl]
      · exact Or.inl (List.mem_cons_of_mem _ hq)
    · rw [aupdate, if_neg hk] at hq
      rcases List.mem_cons.mp hq with rfl | hq
      · exact Or.inl (List.mem_cons_self _ _)
      · rcases ih key f q hq with h | h
        · exact Or.inl (List.mem_cons_of_mem _ h)
        · rw [alookup, if_neg hk]
          exact Or.inr h

theorem alookup_mem {α β : Type} [DecidableEq α] :
    ∀ (l : List (α × β)) (key : α) (v : β), alookup l key = some v → (key, v) ∈ l := by
  intro l
  induction l with
  | nil => intro key v h; cases h
  | cons kv r ih =>
    intro key v h
    obtain ⟨k, v0⟩ := kv
    rw [alookup] at h
    by_cases hk : k = key
    · rw [if_pos hk] at h
      obtain rfl : v0 = v := Option.some.inj h
      rw [← hk]
      exact List.mem_cons_self _ _
    · rw [if_neg hk] at h
      exact List.mem_cons_of_mem _ (ih key v h)


/-! ## Near-mode scan engine (`scan_file_near`, Search.py lines 289-343) -/

/-- Per-token step of the near scan: the filter chain and the bucket update. -/
def nearStep (ncmp : List Char) (max_dist : Nat) (ci same_first : Bool)
    (iset : List (List Char)) (cap : Nat) (rp : List Char)
    (out : NearMap) (t : List Char × Nat × Nat) : NearMap :=
  let tcmp := if ci then t.1.map Char.toLower else t.1
  if tcmp ∈ iset then out
  else if same_first = true ∧ (tcmp = [] ∨ ncmp = [] ∨ tcmp.headD ' ' ≠ ncmp.headD ' ') then
    out
  else if max_dist < ((tcmp.length : Int) - (ncmp.length : Int)).natAbs then out
  else
    let d := bounded_levenshtein tcmp ncmp max_dist
    if d ≤ max_dist then
      aupdate out d (fun b? =>
        aupdate (b?.getD []) t.1 (fun agg? =>
          let agg := agg?.getD ⟨t.1, 0, []⟩
          ⟨agg.token, agg.count + 1,
            if cap = 0 ∨ agg.locs.length < cap then agg.locs ++ [⟨rp, t.2.1, t.2.2⟩]
            else agg.locs⟩))
    else out

/-- `scan_file_near`: the text is supplied as the outcome of `load_text`,
`.error` modelling a read failure caught by the `try/except`. -/
def scan_file_near (load : Except Unit (List Char)) (rp needle : List Char)
    (max_dist : Nat) (ci same_first : Bool) (ignore_tokens : List (List Char))
    (cap : Nat) (useMask : Bool) : NearMap :=
  match load with
  | .error _ => []
  | .ok text =>
    let text2 := if useMask then mask_cpp_comments_and_strings text else text
    let ncmp := if ci then needle.map Char.toLower else needle
    let iset := ignore_tokens.map (fun t => if ci then t.map Char.toLower else t)
    (iter_identifiers_with_pos text2).foldl
      (nearStep ncmp max_dist ci same_first iset cap rp) []

/-- Merging one (token, aggregate) entry of a per-file result into a bucket:
first sight copies the aggregate, otherwise counts are summed and locations
concatenated up to the cap (`cmd_near`, Search.py lines 605-615). -/
def mergeTokStep (cap : Nat) (bucket : TokenMap) (tp : List Char × NearTokenAggregate) :
    TokenMap :=
  aupdate bucket tp.1 (fun cur? =>
    match cur? with
    | none => ⟨tp.1, tp.2.count, tp.2.locs⟩
    | some cur =>
      ⟨cur.token, cur.count + tp.2.count,
        if cap = 0 then cur.locs ++ tp.2.locs
        else cur.locs ++ tp.2.locs.take (cap - cur.locs.length)⟩)

/-- Merging one distance bucket of a per-file result (`agg.setdefault(d, {})`
followed by the token loop). -/
def mergeDistStep (cap : Nat) (acc : NearMap) (dp : Nat × TokenMap) : NearMap :=
  aupdate acc dp.1 (fun b? => dp.2.foldl (mergeTokStep cap) (b?.getD []))

/-- Near-mode aggregation of one per-file result into the global map
(`cmd_near`, Search.py lines 602-615). -/
def mergeNearResult (cap : Nat) (agg pf : NearMap) : NearMap :=
  pf.foldl (mergeDistStep cap) agg

/-- The whole near-mode aggregation over the per-file results in order. -/
def cmd_near_aggregate (cap : Nat) (pfs : List NearMap) : NearMap :=
  pfs.foldl (mergeNearResult cap) []

/-- Count stored in the aggregate for a (distance, token) pair. -/
def mcount (m : NearMap) (d : Nat) (tok : List Char) : Nat :=
  match alookup m d with
  | none => 0
  | some b =>
    match alookup b tok with
    | none => 0
    | some a => a.count

/-- Locations stored in the aggregate for a (distance, token) pair. -/
def mlocs (m : NearMap) (d : Nat) (tok : List Char) : List Occurrence :=
  match alookup m d with
  | none => []
  | some b =>
    match alookup b tok with
    | none => []
    | some a => a.locs

/-- Total count contributed by one per-file map for a (distance, token) pair. -/
def pcount (pf : NearMap) (d : Nat) (tok : List Char) : Nat :=
  (pf.map (fun dp => if dp.1 = d then
    ((dp.2.map (fun tp => if tp.1 = tok then tp.2.count else 0)).sum) else 0)).sum

/-- Locations contributed by one per-file map for a (distance, token) pair. -/
def plocs (pf : NearMap) (d : Nat) (tok : List Char) : List Occurrence :=
  (pf.map (fun dp => if dp.1 = d then
    ((dp.2.map (fun tp => if tp.1 = tok then tp.2.locs else [])).flatten) else [])).flatten

/-- Every aggregate entry of a map has its location list within the cap. -/
def LocsBounded (cap : Nat) (m : NearMap) : Prop :=
  ∀ dp ∈ m, ∀ tp ∈ dp.2, tp.2.locs.length ≤ cap

instance (cap : Nat) (m : NearMap) : Decidable (LocsBounded cap m) := by
  unfold LocsBounded
  infer_instance

/-- Count stored in a bucket for a token. -/
def bcount (b : TokenMap) (tok : List Char) : Nat :=
  match alookup b tok with
  | none => 0
  | some a => a.count

/-- Locations stored in a bucket for a token. -/
def blocs (b : TokenMap) (tok : List Char) : List Occurrence :=
  match alookup b tok with
  | none => []
  | some a => a.locs

/-- Count contributed by a per-file token map for a token. -/
def tmcount (tm : TokenMap) (tok : List Char) : Nat :=
  (tm.map (fun tp => if tp.1 = tok then tp.2.count else 0)).sum

/-- Locations contributed by a per-file token map for a token. -/
def tmlocs (tm : TokenMap) (tok : List Char) : List Occurrence :=
  (tm.map (fun tp => if tp.1 = tok then tp.2.locs else [])).flatten

theorem bucket_fold_count (cap : Nat) (tok : List Char) : ∀ (tm : TokenMap) (bucket : TokenMap),
    bcount (tm.foldl (mergeTokStep cap) bucket) tok = bcount bucket tok + tmcount tm tok := by
  intro tm
  induction tm with
  | nil => intro bucket; simp [tmcount]
  | cons tp tm ih =>
    intro bucket
    rw [List.foldl_cons, ih]
    have hstep : bcount (mergeTokStep cap bucket tp) tok
        = bcount bucket tok + (if tp.1 = tok then tp.2.count else 0) := by
      by_cases hk : tp.1 = tok
      · rw [if_pos hk]
        unfold bcount mergeTokStep
        rw [hk, alookup_aupdate_self]
        cases alookup bucket tok with
        | none => simp
        | some cur => simp
      · rw [if_neg hk]
        unfold bcount mergeTokStep
        rw [alookup_aupdate_ne _ _ _ _ (fun h => hk h.symm)]
        omega
    rw [hstep]
    unfold tmcount
    simp only [List.map_cons, List.sum_cons]
    omega

theorem bucket_fold_locs_nocap (tok : List Char) : ∀ (tm : TokenMap) (bucket : TokenMap),
    blocs (tm.foldl (mergeTokStep 0) bucket) tok = blocs bucket tok ++ tmlocs tm tok := by
  intro tm
  induction tm with
  | nil => intro bucket; simp [tmlocs]
  | cons tp tm ih =>
    intro bucket
    rw [List.foldl_cons, ih]
    have hstep : blocs (mergeTokStep 0 bucket tp) tok
        = blocs bucket tok ++ (if tp.1 = tok then tp.2.locs else []) := by
      by_cases hk : tp.1 = tok
      · rw [if_pos hk]
        unfold blocs mergeTokStep
        rw [hk, alookup_aupdate_self]
        cases alookup bucket tok with
        | none => simp
        | some cur => simp
      · rw [if_neg hk]
        unfold blocs mergeTokStep
        rw [alookup_aupdate_ne _ _ _ _ (fun h => hk h.symm)]
        simp
    rw [hstep]
    unfold tmlocs
    simp only [List.map_cons, List.flatten_cons, List.append_assoc]

theorem merge_count (cap : Nat) (d : Nat) (tok : List Char) :
    ∀ (pf : NearMap) (agg : NearMap),
      mcount (mergeNearResult cap agg pf) d tok = mcount agg d tok + pcount pf d tok := by
  intro pf
  induction pf with
  | nil => intro agg; simp [mergeNearResult, pcount]
  | cons dp pf ih =>
    intro agg
    unfold mergeNearResult at ih ⊢
    rw [List.foldl_cons, ih]
    have hstep : mcount (mergeDistStep cap agg dp) d tok
        = mcount agg d tok + (if dp.1 = d then tmcount dp.2 tok else 0) := by
      by_cases hk : dp.1 = d
      · rw [if_pos hk]
        have hred : mcount (mergeDistStep cap agg dp) d tok
            = bcount (dp.2.foldl (mergeTokStep cap) ((alookup agg d).getD [])) tok := by
          unfold mcount mergeDistStep
          rw [hk, alookup_aupdate_self]
          rfl
        rw [hred, bucket_fold_count]
        cases hb : alookup agg d with
        | none => simp [mcount, bcount, hb, alookup]
        | some b => simp [mcount, bcount, hb]
      · rw [if_neg hk]
        unfold mcount mergeDistStep
        rw [alookup_aupdate_ne _ _ _ _ (fun h => hk h.symm)]
        omega
    rw [hstep]
    unfold pcount
    simp only [List.map_cons, List.sum_cons]
    by_cases hk : dp.1 = d
    · rw [if_pos hk, if_pos hk]
      have hq : tmcount dp.2 tok
          = (dp.2.map (fun tp => if tp.1 = tok then tp.2.count else 0)).sum := rfl
      omega
    · rw [if_neg hk, if_neg hk]
      omega

theorem merge_locs_nocap (d : Nat) (tok : List Char) :
    ∀ (pf : NearMap) (agg : NearMap),
      mlocs (mergeNearResult 0 agg pf) d tok = mlocs agg d tok ++ plocs pf d tok := by
  intro pf
  induction pf with
  | nil => intro agg; simp [mergeNearResult, plocs]
  | cons dp pf ih =>
    intro agg
    unfold mergeNearResult at ih ⊢
    rw [List.foldl_cons, ih]
    have hstep : mlocs (mergeDistStep 0 agg dp) d tok
        = mlocs agg d tok ++ (if dp.1 = d then tmlocs dp.2 tok else []) := by
      by_cases hk : dp.1 = d
      · rw [if_pos hk]
        have hred : mlocs (mergeDistStep 0 agg dp) d tok
            = blocs (dp.2.foldl (mergeTokStep 0) ((alookup agg d).getD [])) tok := by
          unfold mlocs mergeDistStep
          rw [hk, alookup_aupdate_self]
          rfl
        rw [hred, bucket_fold_locs_nocap]
        cases hb : alookup agg d with
        | none => simp [mlocs, blocs, hb, alookup]
        | some b => simp [mlocs, blocs, hb]
      · rw [if_neg hk]
        unfold mlocs mergeDistStep
        rw [alookup_aupdate_ne _ _ _ _ (fun h => hk h.symm)]
        simp
    rw [hstep]
    unfold plocs
    simp only [List.map_cons, List.flatten_cons]
    by_cases hk : dp.1 = d
    · rw [if_pos hk, if_pos hk]
      have hq : tmlocs dp.2 tok
          = (dp.2.map (fun tp => if tp.1 = tok then tp.2.locs else [])).flatten := rfl
      rw [← hq]
      simp [List.append_assoc]
    · rw [if_neg hk, if_neg hk]
      simp

theorem aggregate_count (cap : Nat) (d : Nat) (tok : List Char) (pfs : List NearMap) :
    mcount (cmd_near_aggregate cap pfs) d tok = (pfs.map (fun pf => pcount pf d tok)).sum := by
  unfold cmd_near_aggregate
  have key : ∀ (l : List NearMap) (agg : NearMap),
      mcount (l.foldl (mergeNearResult cap) agg) d tok
        = mcount agg d tok + (l.map (fun pf => pcount pf d tok)).sum := by
    intro l
    induction l with
    | nil => intro agg; simp
    | cons pf l ih =>
      intro agg
      rw [List.foldl_cons, ih, merge_count]
      simp only [List.map_cons, List.sum_cons]
      omega
  rw [key]
  simp [mcount, alookup]

theorem aggregate_locs_nocap (d : Nat) (tok : List Char) (pfs : List NearMap) :
    mlocs (cmd_near_aggregate 0 pfs) d tok = (pfs.map (fun pf => plocs pf d tok)).flatten := by
  unfold cmd_near_aggregate
  have key : ∀ (l : List NearMap) (agg : NearMap),
      mlocs (l.foldl (mergeNearResult 0) agg) d tok
        = mlocs agg d tok ++ (l.map (fun pf => plocs pf d tok)).flatten := by
    intro l
    induction l with
    | nil => intro agg; simp
    | cons pf l ih =>
      intro agg
      rw [List.foldl_cons, ih, merge_locs_nocap]
      simp [List.append_assoc]
  rw [key]
  simp [mlocs, alookup]

/-- Every entry of a bucket has its location list within the cap. -/
def BucketBounded (cap : Nat) (b : TokenMap) : Prop :=
  ∀ tp ∈ b, tp.2.locs.length ≤ cap

theorem mergeTokStep_bounded (cap : Nat) (h0 : 0 < cap) (bucket : TokenMap)
    (tp : List Char × NearTokenAggregate)
    (hb : BucketBounded cap bucket) (htp : tp.2.locs.length ≤ cap) :
    BucketBounded cap (mergeTokStep cap bucket tp) := by
  intro q hq
  rcases aupdate_entries bucket tp.1 _ q hq with h | h
  · exact hb q h
  · rw [h]
    cases hc : alookup bucket tp.1 with
    | none => exact htp
    | some cur =>
      have hcur := hb (tp.1, cur) (alookup_mem bucket tp.1 cur hc)
      simp only at hcur ⊢
      rw [if_neg (by omega)]
      simp only [List.length_append, List.length_take]
      omega

theorem bucket_fold_bounded (cap : Nat) (h0 : 0 < cap) : ∀ (tm : TokenMap) (bucket : TokenMap),
    BucketBounded cap bucket → (∀ tp ∈ tm, tp.2.locs.length ≤ cap) →
    BucketBounded cap (tm.foldl (mergeTokStep cap) bucket) := by
  intro tm
  induction tm with
  | nil => intro bucket hb _; exact hb
  | cons tp tm ih =>
    intro bucket hb htm
    rw [List.foldl_cons]
    refine ih _ ?_ (fun q hq => htm q (List.mem_cons_of_mem _ hq))
    exact mergeTokStep_bounded cap h0 bucket tp hb (htm tp (List.mem_cons_self _ _))

theorem mergeDistStep_bounded (cap : Nat) (h0 : 0 < cap) (agg : NearMap) (dp : Nat × TokenMap)
    (ha : LocsBounded cap agg) (hdp : ∀ tp ∈ dp.2, tp.2.locs.length ≤ cap) :
    LocsBounded cap (mergeDistStep cap agg dp) := by
  intro q hq
  rcases aupdate_entries agg dp.1 _ q hq with h | h
  · exact ha q h
  · rw [h]
    refine bucket_fold_bounded cap h0 dp.2 _ ?_ hdp
    cases hc : alookup agg dp.1 with
    | none => intro tp htp; simp at htp
    | some b =>
      intro tp htp
      exact ha (dp.1, b) (alookup_mem agg dp.1 b hc) tp (by simpa using htp)

theorem merge_bounded (cap : Nat) (h0 : 0 < cap) : ∀ (pf : NearMap) (agg : NearMap),
    LocsBounded cap agg → LocsBounded cap pf →
    LocsBounded cap (mergeNearResult cap agg pf) := by
  intro pf
  induction pf with
  | nil => intro agg ha _; exact ha
  | cons dp pf ih =>
    intro agg ha hpf
    unfold mergeNearResult at ih ⊢
    rw [List.foldl_cons]
    refine ih _ ?_ (fun q hq tp htp => hpf q (List.mem_cons_of_mem _ hq) tp htp)
    exact mergeDistStep_bounded cap h0 agg dp ha
      (fun tp htp => hpf dp (List.mem_cons_self _ _) tp htp)

theorem aggregate_bounded (cap : Nat) (h0 : 0 < cap) (pfs : List NearMap)
    (h : ∀ pf ∈ pfs, LocsBounded cap pf) :
    LocsBounded cap (cmd_near_aggregate cap pfs) := by
  unfold cmd_near_aggregate
  have key : ∀ (l : List NearMap) (agg : NearMap),
      LocsBounded cap agg → (∀ pf ∈ l, LocsBounded cap pf) →
      LocsBounded cap (l.foldl (mergeNearResult cap) agg) := by
    intro l
    induction l with
    | nil => intro agg ha _; exact ha
    | cons pf l ih =>
      intro agg ha hl
      rw [List.foldl_cons]
      refine ih _ ?_ (fun q hq => hl q (List.mem_cons_of_mem _ hq))
      exact merge_bounded cap h0 pf agg ha (hl pf (List.mem_cons_self _ _))
  exact key pfs [] (fun q hq => by simp at hq) h

theorem mlocs_le_cap (cap : Nat) (m : NearMap) (hm : LocsBounded cap m) (d : Nat)
    (tok : List Char) : (mlocs m d tok).length ≤ cap := by
  unfold mlocs
  cases h1 : alookup m d with
  | none => simp
  | some b =>
    cases h2 : alookup b tok with
    | none => simp [h2]
    | some a =>
      simp only [h2]
      exact hm (d, b) (alookup_mem m d b h1) (tok, a) (alookup_mem b tok a h2)

theorem nearStep_bounded (ncmp : List Char) (max_dist : Nat) (ci same_first : Bool)
    (iset : List (List Char)) (cap : Nat) (rp : List Char) (h0 : 0 < cap)
    (out : NearMap) (t : List Char × Nat × Nat) (h : LocsBounded cap out) :
    LocsBounded cap (nearStep ncmp max_dist ci same_first iset cap rp out t) := by
  unfold nearStep
  dsimp only
  generalize (if ci = true then List.map Char.toLower t.1 else t.1) = tcmp
  split
  · exact h
  split
  · exact h
  split
  · exact h
  split
  · intro q hq
    rcases aupdate_entries out _ _ q hq with hq2 | hq2
    · exact h q hq2
    · rw [hq2]
      intro tp htp
      rcases aupdate_entries _ _ _ tp htp with htp2 | htp2
      · cases hc : alookup out (bounded_levenshtein tcmp ncmp max_dist) with
        | none => rw [hc] at htp2; simp at htp2
        | some b =>
          rw [hc] at htp2
          exact h _ (alookup_mem out _ b hc) tp (by simpa using htp2)
      · rw [htp2]
        cases hagg : alookup
            ((alookup out (bounded_levenshtein tcmp ncmp max_dist)).getD []) t.1 with
        | none =>
          simp only [hagg, Option.getD_none]
          rw [if_pos (Or.inr (by simpa using h0))]
          simpa using h0
        | some agg =>
          have hlen : agg.locs.length ≤ cap := by
            cases hc : alookup out (bounded_levenshtein tcmp ncmp max_dist) with
            | none => rw [hc] at hagg; simp [alookup] at hagg
            | some b =>
              rw [hc] at hagg
              exact h _ (alookup_mem out _ b hc) (t.1, agg)
                (alookup_mem b t.1 agg (by simpa using hagg))
          simp only [hagg, Option.getD_some]
          by_cases hcl : cap = 0 ∨ agg.locs.length < cap
          · rw [if_pos hcl]
            simp only [List.length_append, List.length_cons, List.length_nil]
            omega
          · rw [if_neg hcl]
            exact hlen
  · exact h

theorem scan_file_near_bounded (load : Except Unit (List Char)) (rp needle : List Char)
    (max_dist : Nat) (ci same_first : Bool) (ignore_tokens : List (List Char))
    (cap : Nat) (useMask : Bool) (h0 : 0 < cap) :
    LocsBounded cap (scan_file_near load rp needle max_dist ci same_first
      ignore_tokens cap useMask) := by
  unfold scan_file_near
  cases load with
  | error e => intro q hq; simp at hq
  | ok text =>
    dsimp only
    have key : ∀ (l : List (List Char × Nat × Nat)) (m : NearMap), LocsBounded cap m →
        LocsBounded cap (l.foldl (nearStep (if ci = true then needle.map Char.toLower
          else needle) max_dist ci same_first
          (ignore_tokens.map (fun t => if ci = true then t.map Char.toLower else t)) cap rp) m) := by
      intro l
      induction l with
      | nil => intro m hm; exact hm
      | cons t l ih =>
        intro m hm
        rw [List.foldl_cons]
        exact ih _ (nearStep_bounded _ _ _ _ _ _ _ h0 _ _ hm)
    exact key _ [] (fun q hq => by simp at hq)

/-- C4: the near-mode aggregator merges per-file results so that every
(distance, token) count is the exact sum of the per-file counts; with a
positive cap no merged occurrence list exceeds the cap (per-file results,
being scan outputs, respect the cap themselves), and with cap = 0 occurrence
lists are fully concatenated. -/
theorem near_aggregate_spec (cap : Nat) (pfs : List NearMap) :
    (∀ d tok, mcount (cmd_near_aggregate cap pfs) d tok
      = (pfs.map (fun pf => pcount pf d tok)).sum) ∧
    (0 < cap → (∀ pf ∈ pfs, LocsBounded cap pf) →
      ∀ d tok, (mlocs (cmd_near_aggregate cap pfs) d tok).length ≤ cap) ∧
    (cap = 0 → ∀ d tok, mlocs (cmd_near_aggregate cap pfs) d tok
      = (pfs.map (fun pf => plocs pf d tok)).flatten) ∧
    (∀ load rp needle max_dist ci same_first ign useMask, 0 < cap →
      LocsBounded cap (scan_file_near load rp needle max_dist ci same_first ign cap useMask)) := by
  refine ⟨fun d tok => aggregate_count cap d tok pfs, ?_, ?_, ?_⟩
  · intro h0 hb d tok
    exact mlocs_le_cap cap _ (aggregate_bounded cap h0 pfs hb) d tok
  · intro hc d tok
    subst hc
    exact aggregate_locs_nocap d tok pfs
  · intro load rp needle max_dist ci same_first ign useMask h0
    exact scan_file_near_bounded load rp needle max_dist ci same_first ign cap useMask h0

/-- Concrete per-file results for the aggregation witness. -/
def pfsW : List NearMap :=
  [[(0, [("aa".toList, ⟨"aa".toList, 3,
      [⟨"f0".toList, 1, 1⟩]⟩)])],
   [(0, [("aa".toList, ⟨"aa".toList, 2,
      [⟨"f1".toList, 1, 1⟩]⟩)])]]

/-- Witness for the aggregation theorem at a concrete cap and input. -/
theorem near_aggregate_spec_witness :
    mcount (cmd_near_aggregate 1 pfsW) 0 ("aa".toList)
      = (pfsW.map (fun pf => pcount pf 0 ("aa".toList))).sum ∧
    (mlocs (cmd_near_aggregate 1 pfsW) 0 ("aa".toList)).length ≤ 1 :=
  ⟨(near_aggregate_spec 1 pfsW).1 0 ("aa".toList),
   (near_aggregate_spec 1 pfsW).2.1 (by decide) (by decide) 0 ("aa".toList)⟩

/-- Filter chain of the near scan, together with landing in bucket `d`: this
is the survival condition for one token occurrence. All comparisons use the
case-normalized text. -/
def nearKeepD (ncmp : List Char) (max_dist : Nat) (ci same_first : Bool)
    (iset : List (List Char)) (t : List Char × Nat × Nat) (d : Nat) : Prop :=
  (if ci = true then t.1.map Char.toLower else t.1) ∉ iset ∧
  ¬(same_first = true ∧ ((if ci = true then t.1.map Char.toLower else t.1) = [] ∨ ncmp = [] ∨
    (if ci = true then t.1.map Char.toLower else t.1).headD ' ' ≠ ncmp.headD ' ')) ∧
  ¬(max_dist < (((if ci = true then t.1.map Char.toLower else t.1).length : Int)
    - (ncmp.length : Int)).natAbs) ∧
  bounded_levenshtein (if ci = true then t.1.map Char.toLower else t.1) ncmp max_dist
    ≤ max_dist ∧
  bounded_levenshtein (if ci = true then t.1.map Char.toLower else t.1) ncmp max_dist = d

instance (ncmp : List Char) (max_dist : Nat) (ci same_first : Bool)
    (iset : List (List Char)) (t : List Char × Nat × Nat) (d : Nat) :
    Decidable (nearKeepD ncmp max_dist ci same_first iset t d) := by
  unfold nearKeepD
  infer_instance

theorem nearStep_count (ncmp : List Char) (max_dist : Nat) (ci same_first : Bool)
    (iset : List (List Char)) (cap : Nat) (rp : List Char)
    (out : NearMap) (t : List Char × Nat × Nat) (d : Nat) (tok : List Char) :
    mcount (nearStep ncmp max_dist ci same_first iset cap rp out t) d tok =
      mcount out d tok +
        (if t.1 = tok ∧ nearKeepD ncmp max_dist ci same_first iset t d then 1 else 0) := by
  by_cases hcond : t.1 = tok ∧ nearKeepD ncmp max_dist ci same_first iset t d
  · rw [if_pos hcond]
    obtain ⟨h6, hk⟩ := hcond
    unfold nearKeepD at hk
    obtain ⟨h1, h2, h3, h4, h5⟩ := hk
    unfold nearStep
    dsimp only
    rw [if_neg h1, if_neg h2, if_neg h3, if_pos h4]
    subst h5
    subst h6
    unfold mcount
    rw [alookup_aupdate_self]
    dsimp only
    rw [alookup_aupdate_self]
    dsimp only
    cases hb : alookup out (bounded_levenshtein
        (if ci = true then t.1.map Char.toLower else t.1) ncmp max_dist) with
    | none => simp [hb, alookup]
    | some b =>
      simp only [hb, Option.getD_some]
      cases ha : alookup b t.1 with
      | none => simp [ha]
      | some agg => simp [ha]
  · rw [if_neg hcond]
    unfold nearStep
    dsimp only
    by_cases h1 : (if ci = true then t.1.map Char.toLower else t.1) ∈ iset
    · rw [if_pos h1]; omega
    · rw [if_neg h1]
      by_cases h2 : same_first = true ∧ ((if ci = true then t.1.map Char.toLower else t.1) = []
          ∨ ncmp = [] ∨ (if ci = true then t.1.map Char.toLower else t.1).headD ' '
            ≠ ncmp.headD ' ')
      · rw [if_pos h2]; omega
      · rw [if_neg h2]
        by_cases h3 : max_dist < (((if ci = true then t.1.map Char.toLower
            else t.1).length : Int) - (ncmp.length : Int)).natAbs
        · rw [if_pos h3]; omega
        · rw [if_neg h3]
          by_cases h4 : bounded_levenshtein (if ci = true then t.1.map Char.toLower else t.1)
              ncmp max_dist ≤ max_dist
          · rw [if_pos h4]
            by_cases h5 : bounded_levenshtein (if ci = true then t.1.map Char.toLower
                else t.1) ncmp max_dist = d
            · have h6 : ¬(t.1 = tok) := by
                intro h6
                exact hcond ⟨h6, h1, h2, h3, h4, h5⟩
              subst h5
              unfold mcount
              rw [alookup_aupdate_self]
              cases hb : alookup out (bounded_levenshtein
                  (if ci = true then t.1.map Char.toLower else t.1) ncmp max_dist) with
              | none =>
                simp only [hb, Option.getD_none]
                rw [alookup_aupdate_ne _ _ _ _ (fun h => h6 h.symm)]
                simp [alookup]
              | some b =>
                simp only [hb, Option.getD_some]
                rw [alookup_aupdate_ne _ _ _ _ (fun h => h6 h.symm)]
                omega
            · unfold mcount
              rw [alookup_aupdate_ne _ _ _ _ (fun h => h5 h.symm)]
              omega
          · rw [if_neg h4]
            omega

theorem nearLoop_count (ncmp : List Char) (max_dist : Nat) (ci same_first : Bool)
    (iset : List (List Char)) (cap : Nat) (rp : List Char)
    (toks : List (List Char × Nat × Nat)) (out : NearMap) (d : Nat) (tok : List Char) :
    mcount (toks.foldl (nearStep ncmp max_dist ci same_first iset cap rp) out) d tok =
      mcount out d tok +
        toks.countP (fun t =>
          decide (t.1 = tok ∧ nearKeepD ncmp max_dist ci same_first iset t d)) := by
  induction toks generalizing out with
  | nil => simp
  | cons a l ih =>
    rw [List.foldl_cons, ih, nearStep_count, List.countP_cons]
    by_cases h : a.1 = tok ∧ nearKeepD ncmp max_dist ci same_first iset a d
    · rw [if_pos h, if_pos (decide_eq_true h)]
      omega
    · rw [if_neg h, if_neg (by simpa using h)]
      omega

/-- C10: with `case_insensitive` on, every filter of the near scan (ignore set,
first character, length gap, edit distance, bucket placement — packaged as
`nearKeepD`) compares the lowercased token against the lowercased needle and
lowercased ignore set, while the bucket key counts occurrences of the exact
original token text; consequently `Root` and `ROOT` scanned against needle
`root` land in the same distance-0 bucket as two separate entries with
separate counts and separate occurrence lists. -/
theorem near_case_insensitive_keys (text rp needle : List Char) (max_dist : Nat)
    (same_first : Bool) (ignore_tokens : List (List Char)) (cap : Nat) :
    (∀ d tok,
      mcount (scan_file_near (.ok text) rp needle max_dist true same_first
          ignore_tokens cap false) d tok =
        (iter_identifiers_with_pos text).countP (fun t =>
          decide (t.1 = tok ∧ nearKeepD (needle.map Char.toLower) max_dist true same_first
            (ignore_tokens.map (fun s => s.map Char.toLower)) t d))) ∧
    (let res := scan_file_near (.ok ("Root ROOT".toList)) ("f".toList) ("root".toList)
        0 true false [] 0 false
     mcount res 0 ("Root".toList) = 1 ∧ mcount res 0 ("ROOT".toList) = 1 ∧
     mlocs res 0 ("Root".toList) = [⟨"f".toList, 1, 1⟩] ∧
     mlocs res 0 ("ROOT".toList) = [⟨"f".toList, 1, 6⟩]) := by
  constructor
  · intro d tok
    show mcount ((iter_identifiers_with_pos text).foldl
      (nearStep (needle.map Char.toLower) max_dist true same_first
        (ignore_tokens.map (fun s => s.map Char.toLower)) cap rp) []) d tok = _
    rw [nearLoop_count]
    simp [mcount, alookup]
  · decide

/-! ## Compare-mode scan (`scan_file_compare`, Search.py lines 350-389),
expectation checks and `cmd_compare` -/

/-- One per-file row of the compare mode (`CompareFileRow`, Search.py). -/
structure CompareFileRow where
  path : List Char
  count_a : Nat
  count_b : Nat
  diff : Int
  locs_a : List Occurrence
  locs_b : List Occurrence
deriving DecidableEq

/-- Per-token step of the compare scan: classify against A first, else against
B; the state is (count_a, count_b, locs_a, locs_b). -/
def compareStep (acmp bcmp : List Char) (ci : Bool) (locs_per_file : Nat)
    (rp : List Char) (st : Nat × Nat × List Occurrence × List Occurrence)
    (t : List Char × Nat × Nat) : Nat × Nat × List Occurrence × List Occurrence :=
  let tcmp := if ci then t.1.map Char.toLower else t.1
  if tcmp = acmp then
    (st.1 + 1, st.2.1,
      (if locs_per_file = 0 ∨ st.2.2.1.length < locs_per_file
        then st.2.2.1 ++ [⟨rp, t.2.1, t.2.2⟩] else st.2.2.1),
      st.2.2.2)
  else if tcmp = bcmp then
    (st.1, st.2.1 + 1, st.2.2.1,
      (if locs_per_file = 0 ∨ st.2.2.2.length < locs_per_file
        then st.2.2.2 ++ [⟨rp, t.2.1, t.2.2⟩] else st.2.2.2))
  else st

/-- `scan_file_compare`: the text is supplied as the outcome of `load_text`,
`.error` modelling a read failure caught by the `try/except`. -/
def scan_file_compare (load : Except Unit (List Char)) (rp a b : List Char)
    (ci : Bool) (locs_per_file : Nat) (useMask : Bool) : CompareFileRow :=
  match load with
  | .error _ => ⟨rp, 0, 0, 0, [], []⟩
  | .ok text =>
    let text2 := if useMask then mask_cpp_comments_and_strings text else text
    let acmp := if ci then a.map Char.toLower else a
    let bcmp := if ci then b.map Char.toLower else b
    let st := (iter_identifiers_with_pos text2).foldl
      (compareStep acmp bcmp ci locs_per_file rp) (0, 0, [], [])
    ⟨rp, st.1, st.2.1, (st.1 : Int) - (st.2.1 : Int), st.2.2.1, st.2.2.2⟩

/-- The overall total row of `cmd_compare` (Search.py lines 706-710): counts
are summed over the per-file rows and the diff is recomputed from the sums. -/
def totalRow (rows : List CompareFileRow) : CompareFileRow :=
  ⟨"<TOTAL>".toList, (rows.map (fun r => r.count_a)).sum,
    (rows.map (fun r => r.count_b)).sum,
    ((rows.map (fun r => r.count_a)).sum : Int) -
      ((rows.map (fun r => r.count_b)).sum : Int), [], []⟩

/-- Rational multiplication written through `mkRat` (definitionally
evaluable; equal to `*` by `qMul_eq`). -/
def qMul (a b : ℚ) : ℚ := mkRat (a.num * b.num) (a.den * b.den)

/-- Rational subtraction written through `mkRat` (definitionally evaluable;
equal to `-` by `qSub_eq`). -/
def qSub (a b : ℚ) : ℚ :=
  mkRat (a.num * (b.den : Int) - b.num * (a.den : Int)) (a.den * b.den)

theorem qMul_eq (a b : ℚ) : qMul a b = a * b := by
  rw [qMul, Rat.mkRat_eq_div]
  push_cast
  conv_rhs => rw [← Rat.num_div_den a, ← Rat.num_div_den b]
  rw [div_mul_div_comm]

theorem qSub_eq (a b : ℚ) : qSub a b = a - b := by
  rw [qSub, Rat.mkRat_eq_div]
  push_cast
  conv_rhs => rw [← Rat.num_div_den a, ← Rat.num_div_den b]
  rw [div_sub_div _ _ (by exact_mod_cast a.den_nz) (by exact_mod_cast b.den_nz)]
  ring_nf

/-- `2^k` in ℚ for an integer exponent. -/
def qpow2 (k : Int) : ℚ :=
  if 0 ≤ k then ((2 ^ k.toNat : ℕ) : ℚ) else mkRat 1 (2 ^ (-k).toNat)

/-- Structural floor-log2 (`fuel` bounds the recursion; `fuel = n` suffices). -/
def log2Fuel : Nat → Nat → Nat
  | 0, _ => 0
  | fuel + 1, n => if 2 ≤ n then log2Fuel fuel (n / 2) + 1 else 0

def natLog2 (n : Nat) : Nat := log2Fuel n n

/-- `⌊log2 x⌋` for a positive rational. -/
def qlog2 (x : ℚ) : Int :=
  let e0 : Int := (natLog2 x.num.natAbs : Int) - (natLog2 x.den : Int)
  if qpow2 (e0 + 1) ≤ x then e0 + 1
  else if qpow2 e0 ≤ x then e0
  else e0 - 1

/-- Round a rational to the nearest integer, ties to even. -/
def roundHalfEven (x : ℚ) : Int :=
  let f := x.num.fdiv (x.den : Int)
  let r := qSub x ((f : ℤ) : ℚ)
  if r < mkRat 1 2 then f
  else if mkRat 1 2 < r then f + 1
  else if f % 2 = 0 then f else f + 1

/-- Round a rational to the nearest IEEE-754 binary64 value (round to nearest,
ties to even), as an exact rational: the unit in the last place is `2^(e-52)`
for a normal magnitude `2^e ≤ |x| < 2^(e+1)` and `2^-1074` in the subnormal
range. This covers the finite double range, which every quantity reached by
the theorems below stays inside. -/
def roundB64 (x : ℚ) : ℚ :=
  if x = 0 then 0
  else
    let e : Int := qlog2 |x|
    let u : Int := max (e - 52) (-1074)
    let m : Int := roundHalfEven (qMul |x| (qpow2 (-u)))
    qMul (((if x < 0 then -m else m : ℤ)) : ℚ) (qpow2 u)

/-- `check_expectation` (Search.py lines 539-549). The first three branches
compare Python ints exactly. The fall-through ratio branch follows the
source's float arithmetic: `ratio * row.count_b` converts the int to a double
and rounds the product, `row.count_a - target` converts and rounds likewise,
and the final `<=` against the int tolerance is exact. `rVal` models the
parsed double `args.ratio`. Any expectation other than the three named ones
falls to the ratio branch, as in the source. -/
def check_expectation (row : CompareFileRow) (expect : List Char) (rVal : ℚ)
    (tolerance : Int) : Bool :=
  if expect = "equal".toList then decide (|row.diff| ≤ tolerance)
  else if expect = "a>=b".toList then decide (-tolerance ≤ row.diff)
  else if expect = "b>=a".toList then decide (row.diff ≤ tolerance)
  else
    decide (|roundB64 (qSub (roundB64 (row.count_a : ℚ))
      (roundB64 (qMul rVal (roundB64 (row.count_b : ℚ)))))| ≤ (tolerance : ℚ))

/-- The spec's exact-arithmetic reading of `check_expectation`'s ratio branch
(`|count_a − ratio·count_b| ≤ tolerance` over the true rationals), compared
against the float-faithful `check_expectation` in the refutation. -/
def check_expectation_exact (row : CompareFileRow) (expect : List Char) (rVal : ℚ)
    (tolerance : Int) : Bool :=
  if expect = "equal".toList then decide (|row.diff| ≤ tolerance)
  else if expect = "a>=b".toList then decide (-tolerance ≤ row.diff)
  else if expect = "b>=a".toList then decide (row.diff ≤ tolerance)
  else decide (|(row.count_a : ℚ) - rVal * (row.count_b : ℚ)| ≤ (tolerance : ℚ))

/-- Result of one `cmd_compare` run over already-loaded file contents:
the per-file rows, the total row, the overall expectation verdict, the
mismatching rows, and the value returned by the function (the exit status,
Search.py line 774). -/
structure CompareRun where
  rows : List CompareFileRow
  total : CompareFileRow
  overall_ok : Bool
  mismatches : List CompareFileRow
  exitCode : Nat
deriving DecidableEq

/-- `cmd_compare` (Search.py lines 672-774) on loaded inputs: each element of
`loads` is the outcome of `load_text` for one file paired with the file's
relative path. The function always ends in `return 0`. -/
def cmd_compare (loads : List (Except Unit (List Char) × List Char))
    (a b : List Char) (ci : Bool) (locs_per_file : Nat) (useMask : Bool)
    (expect : List Char) (rVal : ℚ) (tolerance : Int) : CompareRun :=
  let rows := loads.map (fun fl => scan_file_compare fl.1 fl.2 a b ci locs_per_file useMask)
  let total := totalRow rows
  ⟨rows, total, check_expectation total expect rVal tolerance,
    rows.filter (fun r => !check_expectation r expect rVal tolerance), 0⟩

theorem compareLoop_fst (acmp bcmp : List Char) (ci : Bool) (lpf : Nat) (rp : List Char) :
    ∀ (toks : List (List Char × Nat × Nat)) (st : Nat × Nat × List Occurrence × List Occurrence),
    (toks.foldl (compareStep acmp bcmp ci lpf rp) st).1 =
      st.1 + toks.countP (fun t =>
        decide ((if ci then t.1.map Char.toLower else t.1) = acmp)) := by
  intro toks
  induction toks with
  | nil => intro st; simp
  | cons a0 l ih =>
    intro st
    rw [List.foldl_cons, ih, List.countP_cons]
    unfold compareStep
    dsimp only
    by_cases h1 : (if ci then a0.1.map Char.toLower else a0.1) = acmp
    · rw [if_pos h1]
      dsimp only
      rw [if_pos (decide_eq_true h1)]
      omega
    · have hd : (if decide ((if ci then a0.1.map Char.toLower else a0.1) = acmp) = true
          then 1 else 0) = 0 := if_neg (by simpa using h1)
      rw [if_neg h1, hd]
      by_cases h2 : (if ci then a0.1.map Char.toLower else a0.1) = bcmp
      · rw [if_pos h2]
        dsimp only
        omega
      · rw [if_neg h2]
        omega

theorem compareLoop_snd (acmp bcmp : List Char) (ci : Bool) (lpf : Nat) (rp : List Char) :
    ∀ (toks : List (List Char × Nat × Nat)) (st : Nat × Nat × List Occurrence × List Occurrence),
    (toks.foldl (compareStep acmp bcmp ci lpf rp) st).2.1 =
      st.2.1 + toks.countP (fun t =>
        decide (¬((if ci then t.1.map Char.toLower else t.1) = acmp) ∧
          (if ci then t.1.map Char.toLower else t.1) = bcmp)) := by
  intro toks
  induction toks with
  | nil => intro st; simp
  | cons a0 l ih =>
    intro st
    rw [List.foldl_cons, ih, List.countP_cons]
    unfold compareStep
    dsimp only
    by_cases h1 : (if ci then a0.1.map Char.toLower else a0.1) = acmp
    · have hd : (if decide (¬((if ci then a0.1.map Char.toLower else a0.1) = acmp) ∧
          (if ci then a0.1.map Char.toLower else a0.1) = bcmp) = true
          then 1 else 0) = 0 := if_neg (fun hdec => (of_decide_eq_true hdec).1 h1)
      rw [if_pos h1, hd]
      dsimp only
      omega
    · rw [if_neg h1]
      by_cases h2 : (if ci then a0.1.map Char.toLower else a0.1) = bcmp
      · have hd : (if decide (¬((if ci then a0.1.map Char.toLower else a0.1) = acmp) ∧
            (if ci then a0.1.map Char.toLower else a0.1) = bcmp) = true
            then 1 else 0) = 1 := if_pos (decide_eq_true (And.intro h1 h2))
        rw [if_pos h2, hd]
        dsimp only
        omega
      · have hd : (if decide (¬((if ci then a0.1.map Char.toLower else a0.1) = acmp) ∧
            (if ci then a0.1.map Char.toLower else a0.1) = bcmp) = true
            then 1 else 0) = 0 := if_neg (fun hdec => h2 (of_decide_eq_true hdec).2)
        rw [if_neg h2, hd]
        omega

theorem countP_disjoint_le {α : Type} (p q : α → Bool)
    (h : ∀ x, q x = true → p x = false) :
    ∀ l : List α, l.countP p + l.countP q ≤ l.length := by
  intro l
  induction l with
  | nil => simp
  | cons x l ih =>
    rw [List.countP_cons, List.countP_cons, List.length_cons]
    by_cases hq : q x = true
    · rw [if_pos hq, h x hq]
      simp only [Bool.false_eq_true, if_false]
      omega
    · rw [if_neg hq]
      by_cases hp : p x = true
      · rw [if_pos hp]
        omega
      · rw [if_neg hp]
        omega

/-- C5: the compare scan classifies each occurrence against A first and
against B only otherwise — count_a counts tokens whose normalization equals
acmp, count_b counts tokens whose normalization is not acmp but equals bcmp,
so one occurrence feeds at most one counter and the two counts together never
exceed the number of occurrences; and the diff field of every per-file row
and of the total row is recomputed as count_a − count_b. -/
theorem compare_scan_spec (text rp a b : List Char) (ci : Bool) (lpf : Nat)
    (useMask : Bool) :
    (scan_file_compare (.ok text) rp a b ci lpf useMask).count_a =
      (iter_identifiers_with_pos
          (if useMask then mask_cpp_comments_and_strings text else text)).countP
        (fun t => decide ((if ci then t.1.map Char.toLower else t.1) =
          (if ci then a.map Char.toLower else a))) ∧
    (scan_file_compare (.ok text) rp a b ci lpf useMask).count_b =
      (iter_identifiers_with_pos
          (if useMask then mask_cpp_comments_and_strings text else text)).countP
        (fun t => decide (¬((if ci then t.1.map Char.toLower else t.1) =
            (if ci then a.map Char.toLower else a)) ∧
          (if ci then t.1.map Char.toLower else t.1) =
            (if ci then b.map Char.toLower else b))) ∧
    (scan_file_compare (.ok text) rp a b ci lpf useMask).count_a +
      (scan_file_compare (.ok text) rp a b ci lpf useMask).count_b ≤
      (iter_identifiers_with_pos
        (if useMask then mask_cpp_comments_and_strings text else text)).length ∧
    (∀ load, (scan_file_compare load rp a b ci lpf useMask).diff =
      ((scan_file_compare load rp a b ci lpf useMask).count_a : Int) -
        ((scan_file_compare load rp a b ci lpf useMask).count_b : Int)) ∧
    (∀ rows : List CompareFileRow, (totalRow rows).diff =
      ((totalRow rows).count_a : Int) - ((totalRow rows).count_b : Int)) := by
  refine ⟨?_, ?_, ?_, ?_, ?_⟩
  · show ((iter_identifiers_with_pos
        (if useMask then mask_cpp_comments_and_strings text else text)).foldl
        (compareStep (if ci then a.map Char.toLower else a)
          (if ci then b.map Char.toLower else b) ci lpf rp) (0, 0, [], [])).1 = _
    rw [compareLoop_fst]
    simp
  · show ((iter_identifiers_with_pos
        (if useMask then mask_cpp_comments_and_strings text else text)).foldl
        (compareStep (if ci then a.map Char.toLower else a)
          (if ci then b.map Char.toLower else b) ci lpf rp) (0, 0, [], [])).2.1 = _
    rw [compareLoop_snd]
    simp
  · have h1 : (scan_file_compare (.ok text) rp a b ci lpf useMask).count_a =
        ((iter_identifiers_with_pos
          (if useMask then mask_cpp_comments_and_strings text else text)).foldl
          (compareStep (if ci then a.map Char.toLower else a)
            (if ci then b.map Char.toLower else b) ci lpf rp) (0, 0, [], [])).1 := rfl
    have h2 : (scan_file_compare (.ok text) rp a b ci lpf useMask).count_b =
        ((iter_identifiers_with_pos
          (if useMask then mask_cpp_comments_and_strings text else text)).foldl
          (compareStep (if ci then a.map Char.toLower else a)
            (if ci then b.map Char.toLower else b) ci lpf rp) (0, 0, [], [])).2.1 := rfl
    rw [h1, h2, compareLoop_fst, compareLoop_snd]
    simp only [Nat.zero_add]
    apply countP_disjoint_le
    intro x hqx
    exact decide_eq_false (of_decide_eq_true hqx).1
  · intro load
    cases load with
    | error e => rfl
    | ok text' => rfl
  · intro rows
    unfold totalRow
    simp [Nat.cast_list_sum, List.map_map, Function.comp_def]

/-- C6 (amended): `check_expectation` is a pure function of the row's counts
and diff, the expectation kind, the ratio value and the tolerance: `equal`
passes iff |diff| ≤ tolerance, `a>=b` iff diff ≥ −tolerance, `b>=a` iff
diff ≤ tolerance — these three in exact integer arithmetic — while `ratio`
passes iff |count_a − ratio·count_b| ≤ tolerance computed in binary64 float
arithmetic, not in exact arithmetic (the exact reading fails at
count_a = 2⁵³+1, see the counterexample); rows equal in those three fields
get identical verdicts for every expectation, so per-file rows and the total
row are judged by the same rule. -/
theorem check_expectation_spec (row : CompareFileRow) (rVal : ℚ) (tolerance : Int) :
    (check_expectation row ("equal".toList) rVal tolerance = true ↔
      |row.diff| ≤ tolerance) ∧
    (check_expectation row ("a>=b".toList) rVal tolerance = true ↔
      -tolerance ≤ row.diff) ∧
    (check_expectation row ("b>=a".toList) rVal tolerance = true ↔
      row.diff ≤ tolerance) ∧
    (check_expectation row ("ratio".toList) rVal tolerance = true ↔
      |roundB64 (roundB64 (row.count_a : ℚ) -
        roundB64 (rVal * roundB64 (row.count_b : ℚ)))| ≤ (tolerance : ℚ)) ∧
    (∀ row' : CompareFileRow, row'.count_a = row.count_a →
      row'.count_b = row.count_b → row'.diff = row.diff →
      ∀ expect, check_expectation row' expect rVal tolerance =
        check_expectation row expect rVal tolerance) := by
  refine ⟨?_, ?_, ?_, ?_, ?_⟩
  · rw [check_expectation, if_pos rfl]
    exact decide_eq_true_iff
  · rw [check_expectation, if_neg (by decide), if_pos rfl]
    exact decide_eq_true_iff
  · rw [check_expectation, if_neg (by decide), if_neg (by decide), if_pos rfl]
    exact decide_eq_true_iff
  · rw [check_expectation, if_neg (by decide), if_neg (by decide), if_neg (by decide),
      qSub_eq, qMul_eq]
    exact decide_eq_true_iff
  · intro row' h1 h2 h3 expect
    rw [check_expectation, check_expectation, h1, h2, h3]

set_option maxRecDepth 4000 in
/-- C6 counterexample: at count_a = 2⁵³+1, count_b = 2⁵³, ratio = 1,
tolerance = 0 the program's float ratio check passes — converting 2⁵³+1 to a
double rounds it to 2⁵³ — while the spec's exact-arithmetic reading fails
(|1| ≤ 0 is false). -/
theorem check_expectation_float_cex :
    check_expectation ⟨[], 2 ^ 53 + 1, 2 ^ 53, 1, [], []⟩ ("ratio".toList) 1 0 = true ∧
    check_expectation_exact ⟨[], 2 ^ 53 + 1, 2 ^ 53, 1, [], []⟩ ("ratio".toList) 1 0
      = false := by
  constructor
  · decide
  · rw [check_expectation_exact, if_neg (by decide), if_neg (by decide), if_neg (by decide)]
    rw [decide_eq_false_iff_not]
    norm_num

/-- C7: a file whose read fails contributes an empty result and leaves every
other file's contribution untouched: the near scan returns the empty map and
merging it into the global aggregate is the identity, and the compare scan
returns an all-zero row whose inclusion leaves the total row unchanged. -/
theorem error_file_empty_result (rp needle a b : List Char) (max_dist : Nat)
    (ci same_first : Bool) (ignore_tokens : List (List Char)) (cap lpf : Nat)
    (useMask : Bool) (agg : NearMap) (rows : List CompareFileRow) :
    scan_file_near (.error ()) rp needle max_dist ci same_first ignore_tokens
      cap useMask = [] ∧
    mergeNearResult cap agg (scan_file_near (.error ()) rp needle max_dist ci
      same_first ignore_tokens cap useMask) = agg ∧
    scan_file_compare (.error ()) rp a b ci lpf useMask =
      ⟨rp, 0, 0, 0, [], []⟩ ∧
    totalRow (rows ++ [scan_file_compare (.error ()) rp a b ci lpf useMask]) =
      totalRow rows := by
  refine ⟨rfl, rfl, rfl, ?_⟩
  show totalRow (rows ++ [⟨rp, 0, 0, 0, [], []⟩]) = totalRow rows
  unfold totalRow
  simp

/-- C8: the value `cmd_compare` returns — the process exit status — is 0 for
every completed run, independently of the expectation verdicts: two runs
differing in expectation, ratio and tolerance produce the same exit code. -/
theorem cmd_compare_exit_zero (loads : List (Except Unit (List Char) × List Char))
    (a b : List Char) (ci : Bool) (lpf : Nat) (useMask : Bool)
    (expect : List Char) (rVal : ℚ) (tolerance : Int) :
    (cmd_compare loads a b ci lpf useMask expect rVal tolerance).exitCode = 0 ∧
    (∀ expect' rVal' tolerance',
      (cmd_compare loads a b ci lpf useMask expect rVal tolerance).exitCode =
        (cmd_compare loads a b ci lpf useMask expect' rVal' tolerance').exitCode) :=
  ⟨rfl, fun _ _ _ => rfl⟩
